import Mathlib

/-!
Verification of the cozy-floem line-layout engine (`src/libs/doc/src/lines/`).

The development shallowly embeds the data model and the operations of
`DocLines` (`mod.rs`), `OriginLine`/`OriginFoldedLine`/`VisualLine`
(`line.rs`) and `SignalManager` (`signal.rs`).  Modules of the repository
that are referenced by `mod.rs` but whose sources are not present
(`phantom_text.rs`, `fold.rs`, `delta_compute.rs`, `buffer`,
`line/update_lines.rs`, `screen_lines.rs`) are modelled from the
specification; each such definition says so in its doc comment.

The file is organised as definitions first, theorems afterwards.
-/

namespace Phantom

/-- Modelled from the spec: one phantom insertion of `PhantomTextLine`
(`phantom_text.rs` is absent from the sources).  `col` is the origin
column the insertion is anchored at, `len` the length of the inserted
virtual text. -/
structure Ins where
  col : Nat
  len : Nat
deriving Repr, DecidableEq

/-- Modelled from the spec: the per-line phantom data of
`PhantomTextLine` — origin line index, buffer offset of the line start,
origin text length, and the ordered insertions. -/
structure PLine where
  line : Nat
  offsetOfLine : Nat
  originTextLen : Nat
  inserts : List Ins
deriving Repr, DecidableEq

/-- Well-formedness from the spec: insertions sorted by origin column
(strictly, so final columns strictly increase) and nonempty. -/
def PLine.wf (pl : PLine) : Prop :=
  pl.inserts.Pairwise (fun a b => a.col < b.col) ∧ ∀ p ∈ pl.inserts, 0 < p.len

instance (pl : PLine) : Decidable pl.wf := by
  unfold PLine.wf
  infer_instance

/-- Total length of the insertions that lie before origin column `c`;
`beforeCursor` decides the side taken by an insertion anchored exactly
at `c` (the `before_cursor` flag of `final_col_of_col`). -/
def sumShift (ps : List Ins) (c : Nat) (beforeCursor : Bool) : Nat :=
  (ps.filter (fun p => p.col < c || (p.col == c && !beforeCursor))).foldr
    (fun p a => p.len + a) 0

/-- Modelled from the spec: `col_at` / `final_col_of_col` — maps an
origin column to the column after phantom insertion. -/
def final_col_of_col (pl : PLine) (c : Nat) (beforeCursor : Bool) : Nat :=
  c + sumShift pl.inserts c beforeCursor

/-- Origin column of a final column: walk the insertions left to right;
a final column strictly interior to an insertion is clamped to the
insertion's anchor (undefined by contract). -/
def originColOfFinal : List Ins → Nat → Nat
  | [], f => f
  | p :: rest, f =>
    if f ≤ p.col then f
    else if f < p.col + p.len then p.col
    else originColOfFinal rest (f - p.len)

/-- Modelled from the spec: `cursor_position_of_final_col` returns
`(origin_line, origin_col, buffer_offset)`. -/
def cursor_position_of_final_col (pl : PLine) (f : Nat) : Nat × Nat × Nat :=
  (pl.line, originColOfFinal pl.inserts f,
    pl.offsetOfLine + originColOfFinal pl.inserts f)

/-- A final column strictly inside one of the insertions. -/
def strictlyInterior : List Ins → Nat → Bool
  | [], _ => false
  | p :: rest, f =>
    if f ≤ p.col then false
    else if f < p.col + p.len then true
    else strictlyInterior rest (f - p.len)

end Phantom

namespace Lines

/-- Embedded from `OriginFoldedLine` (`line.rs` 76-87), restricted to the
fields the claims use: the folded-line index, the inclusive origin-line
interval, the glyph counts of the wrapped sub-lines of its text layout,
and the phantom data of the merged line. -/
structure OriginFoldedLineE where
  line_index : Nat
  origin_line_start : Nat
  origin_line_end : Nat
  subGlyphs : List Nat
  phantom : Phantom.PLine
deriving Repr, DecidableEq

/-- Embedded from `VisualLine` (`line.rs` 216-225); interval endpoints
are spelled out because `Interval` is an external type. -/
structure VisualLineE where
  line_index : Nat
  origin_interval_start : Nat
  origin_interval_stop : Nat
  visual_interval_start : Nat
  visual_interval_stop : Nat
  origin_line : Nat
  origin_folded_line : Nat
  origin_folded_line_sub_index : Nat
deriving Repr, DecidableEq

/-- Embedded from `DocLines::folded_line_of_origin_line`
(`mod.rs` 868-880): linear search for the folded line whose origin
interval contains the line; `none` embeds the typed `bail!` error. -/
def folded_line_of_origin_line (fls : List OriginFoldedLineE)
    (origin_line : Nat) : Option OriginFoldedLineE :=
  fls.find? (fun fl =>
    fl.origin_line_start ≤ origin_line && origin_line ≤ fl.origin_line_end)

/-- Modelled from the spec (`line/update_lines.rs` is absent): the last
origin line of the folded group starting at `s` — extend while the
current line's phantom carries a fold placeholder that swallows the next
line, bounded by the last buffer line `limitLine`. -/
def chainEnd (swallow : Nat → Bool) (s limitLine : Nat) : Nat :=
  if h : s < limitLine ∧ swallow s then chainEnd swallow (s + 1) limitLine
  else s
termination_by limitLine - s
decreasing_by
  simp_wf
  omega

/-- Modelled from the spec (LineBuilder step 2, `line/update_lines.rs`
absent): the origin-line intervals of the folded lines built from line
`s` on, with `fuel` the number of lines still to cover. -/
def buildIntervals (swallow : Nat → Bool) (limitLine s fuel : Nat) :
    List (Nat × Nat) :=
  match fuel with
  | 0 => []
  | fuel' + 1 =>
    (s, chainEnd swallow s limitLine) ::
      buildIntervals swallow limitLine (chainEnd swallow s limitLine + 1)
        (fuel' - (chainEnd swallow s limitLine - s))
termination_by fuel
decreasing_by
  simp_wf
  omega

/-- The folded-line origin intervals of an `n`-line buffer. -/
def foldedIntervals (swallow : Nat → Bool) (n : Nat) : List (Nat × Nat) :=
  buildIntervals swallow (n - 1) 0 n

/-- The folded lines built from the intervals, numbering them from `i`;
`glyphs`/`ph` supply each folded line's wrapped layout and phantom. -/
def buildFoldedLinesAux (glyphs : Nat → List Nat) (ph : Nat → Phantom.PLine) :
    List (Nat × Nat) → Nat → List OriginFoldedLineE
  | [], _ => []
  | iv :: rest, i =>
    ⟨i, iv.1, iv.2, glyphs i, ph i⟩ :: buildFoldedLinesAux glyphs ph rest (i + 1)

/-- Modelled from the spec: the folded-line array a rebuild of an
`n`-line buffer produces. -/
def buildFoldedLines (swallow : Nat → Bool) (glyphs : Nat → List Nat)
    (ph : Nat → Phantom.PLine) (n : Nat) : List OriginFoldedLineE :=
  buildFoldedLinesAux glyphs ph (foldedIntervals swallow n) 0

/-- Modelled from the spec (LineBuilder step 4): the visual-column
intervals of the visual lines emitted for one folded line whose wrapped
sub-lines have glyph counts `gs`, starting at column `c`. -/
def buildVisualIntervals : List Nat → Nat → List (Nat × Nat)
  | [], _ => []
  | g :: rest, c => (c, c + g) :: buildVisualIntervals rest (c + g)

end Lines

namespace Lines

/-- Outcome of a Rust call in the embedding: `ok` is a successful
return, `err` a typed error (an `anyhow` `Err`, produced by `bail!` or
`ok_or`), and `panicked` an execution that panics (out-of-bounds index
or arithmetic underflow). -/
inductive RRes (A : Type) where
  | ok (a : A)
  | err
  | panicked
deriving Repr, DecidableEq

/-- Embedded from `DocLines` (`mod.rs` 173-214), restricted to the two
line arrays the lookup queries walk. -/
structure DocLinesE where
  origin_folded_lines : List OriginFoldedLineE
  visual_lines : List VisualLineE
deriving Repr, DecidableEq

/-- The linear search of `folded_line_of_origin_line` as a fallible
call on the document state; it never indexes, so it never panics. -/
def folded_line_of_origin_line_r (s : DocLinesE) (origin_line : Nat) :
    RRes OriginFoldedLineE :=
  match folded_line_of_origin_line s.origin_folded_lines origin_line with
  | some fl => .ok fl
  | none => .err

/-- Embedded from `DocLines::visual_line_of_folded_line_and_sub_index`
(`mod.rs` 894-910): linear search, `bail!` on a miss. -/
def visual_line_of_folded_line_and_sub_index (s : DocLinesE)
    (origin_folded_line sub_index : Nat) : RRes VisualLineE :=
  match s.visual_lines.find? (fun vl =>
      vl.origin_folded_line == origin_folded_line &&
        vl.origin_folded_line_sub_index == sub_index) with
  | some vl => .ok vl
  | none => .err

/-- Embedded from `DocLines::last_visual_line` (`mod.rs` 912-914):
direct index `visual_lines[len - 1]`, which panics on an empty array. -/
def last_visual_line (s : DocLinesE) : RRes VisualLineE :=
  match s.visual_lines.get? (s.visual_lines.length - 1) with
  | some vl => .ok vl
  | none => .panicked

/-- Embedded from the loop of `next_visual_line` (`mod.rs` 1092-1106):
walk the sub-line glyph counts, adding the counts before `subIdx` to
`lo`, and compute the last-character index of the target sub-line as
`glyphs.len().max(1) - 1`. -/
def scanNext : List Nat → Nat → Nat → Nat → Nat × Nat
  | [], _, _, lo => (lo, 0)
  | g :: rest, subIdx, i, lo =>
    if i < subIdx then scanNext rest subIdx (i + 1) (lo + g)
    else (lo, g.max 1 - 1)

/-- Embedded from the loop of `_previous_visual_line`
(`mod.rs` 1055-1069): same walk, but the last-character index is the
unguarded `glyphs.len() - 1`, which underflows (`none`) on an empty
sub-line. -/
def scanPrev : List Nat → Nat → Nat → Nat → Option (Nat × Nat)
  | [], _, _, lo => some (lo, 0)
  | g :: rest, subIdx, i, lo =>
    if i < subIdx then scanPrev rest subIdx (i + 1) (lo + g)
    else if g = 0 then none else some (lo, g - 1)

/-- Embedded from `DocLines::next_visual_line` (`mod.rs` 1083-1117):
returns a bare tuple in the source and indexes
`visual_lines[min(idx, len - 2) + 1]` and `origin_folded_lines[..]`
directly, so a state with fewer than two visual lines panics. -/
def next_visual_line (s : DocLinesE) (visual_line_index line_offset : Nat) :
    RRes (VisualLineE × Nat × Bool) :=
  match s.visual_lines.get?
      (min visual_line_index (s.visual_lines.length - 2) + 1) with
  | none => .panicked
  | some nv =>
    match s.origin_folded_lines.get? nv.origin_folded_line with
    | none => .panicked
    | some fl =>
      let p := scanNext fl.subGlyphs nv.origin_folded_line_sub_index 0
        line_offset
      let r := Phantom.cursor_position_of_final_col fl.phantom p.1
      .ok (nv, r.2.1, r.2.1 == p.2)

/-- Embedded from `DocLines::previous_visual_line` (`mod.rs` 1039-1080):
the `Option`-returning body is wrapped by `ok_or` into a typed error, so
failed `get` lookups are `err`; the only panic is the unguarded
`glyphs.len() - 1` underflow inside the loop. -/
def previous_visual_line (s : DocLinesE)
    (visual_line_index line_offset : Nat) : RRes (VisualLineE × Nat × Bool) :=
  match s.visual_lines.get? (max visual_line_index 1 - 1) with
  | none => .err
  | some pv =>
    match s.origin_folded_lines.get? pv.origin_folded_line with
    | none => .err
    | some fl =>
      match scanPrev fl.subGlyphs pv.origin_folded_line_sub_index 0
          line_offset with
      | none => .panicked
      | some p =>
        let r := Phantom.cursor_position_of_final_col fl.phantom p.1
        .ok (pv, r.2.1, r.2.1 == p.2)

end Lines

namespace Styles

/-- Embedded from `NewLineStyle` (`style.rs` is absent; the fields are
exactly those written by `_get_line_semantic_styles` and
`get_line_diagnostic_styles_2` in `mod.rs`); colors are numbered. -/
structure NewLineStyleE where
  origin_line : Nat
  origin_line_offset_start : Nat
  len : Nat
  start_of_buffer : Nat
  end_of_buffer : Nat
  fg_color : Nat
  folded_line_offset_start : Nat
  folded_line_offset_end : Nat
deriving Repr, DecidableEq

/-- An absolute-offset span carrying a value (a semantic style key). -/
structure SpanE where
  start : Nat
  stop : Nat
  val : Nat
deriving Repr, DecidableEq

/-- An absolute-offset diagnostic span; `severity` follows the LSP
numbering (ERROR 1, WARNING 2, INFORMATION 3, HINT 4), `none` for a
diagnostic without a severity. -/
structure DiagSpanE where
  start : Nat
  stop : Nat
  severity : Option Nat
deriving Repr, DecidableEq

/-- Embedded from `DocLines::_get_line_semantic_styles`
(`mod.rs` 773-805): keep a span iff `line_start <= start` and
`end < line_end`, and the config maps its key to a color. -/
def get_line_semantic_styles (styles : List SpanE)
    (colorMap : Nat → Option Nat) (origin_line line_start line_end : Nat) :
    List NewLineStyleE :=
  styles.filterMap (fun sp =>
    if line_start ≤ sp.start ∧ sp.stop < line_end then
      (colorMap sp.val).map (fun c =>
        ⟨origin_line, sp.start - line_start, sp.stop - sp.start,
          sp.start, sp.stop, c, sp.start - line_start, sp.stop - line_start⟩)
    else none)

/-- Embedded from `DocLines::get_line_diagnostic_styles_2`
(`mod.rs` 1965-2023).  The outer filter models
`iter_chunks(start_offset..end_offset)` of the external span tree
(spans intersecting the queried range; `lapce_xi_rope` is external);
the inner condition and the constructed fields are the code's own. -/
def get_line_diagnostic_styles_2 (enable_error_lens : Bool)
    (diags : List DiagSpanE) (colorOfDiag : Nat → Option Nat)
    (origin_line start_offset end_offset : Nat) : List NewLineStyleE :=
  if enable_error_lens then
    (diags.filter (fun d =>
        d.start < end_offset && start_offset < d.stop)).filterMap (fun d =>
      match d.severity with
      | none => none
      | some sev =>
        if d.start ≤ end_offset ∧ start_offset ≤ d.stop ∧ sev < 4 then
          (colorOfDiag sev).map (fun c =>
            ⟨origin_line, d.start - start_offset, d.stop - d.start,
              start_offset, end_offset, c, d.start - start_offset,
              d.stop - start_offset⟩)
        else none)
  else []

/-- Embedded from `OriginLine::semantic_styles` (`line.rs` 40-49):
every span's `origin_line_offset_start` is shifted by the same
`delta`. -/
def semantic_styles_shift (delta : Nat) (styles : List NewLineStyleE) :
    List NewLineStyleE :=
  styles.map (fun x =>
    { x with origin_line_offset_start := x.origin_line_offset_start + delta })

/-- Embedded from the merge loop of `DocLines::new_text_layout_2`
(`mod.rs` 1478-1497): the first line's styles are taken unshifted, and
each later merged line contributes its styles shifted by the running
`origin_text_len` of the phantom text at merge time (the first
component of each pair). -/
def merged_semantic_styles (first : List NewLineStyleE)
    (rest : List (Nat × List NewLineStyleE)) : List NewLineStyleE :=
  first ++ (rest.map (fun p => semantic_styles_shift p.1 p.2)).flatten

end Styles

namespace Signal

/-- Embedded from `SignalManager` (`signal.rs` 94-139): `v` is the
stored value, `dirty` the flag, `signalVal` the value held by the
underlying reactive signal, and `setCount` the number of `set`
notifications the reactive signal has received. -/
structure SignalManagerE (A : Type) where
  v : A
  signalVal : A
  dirty : Bool
  setCount : Nat
deriving Repr, DecidableEq

/-- Embedded from `SignalManager::update_force` (`signal.rs` 110-113):
overwrite the stored value and mark dirty; the reactive signal is not
touched. -/
def update_force {A : Type} (m : SignalManagerE A) (nv : A) :
    SignalManagerE A :=
  { m with v := nv, dirty := true }

/-- Embedded from `SignalManager::update_if_not_equal`
(`signal.rs` 142-150): overwrite and mark dirty only when the new value
differs; returns whether it changed. -/
def update_if_not_equal {A : Type} [DecidableEq A] (m : SignalManagerE A)
    (nv : A) : SignalManagerE A × Bool :=
  if m.v ≠ nv then ({ m with v := nv, dirty := true }, true) else (m, false)

/-- Embedded from `SignalManager::trigger` (`signal.rs` 115-120): set
the reactive signal iff dirty, clearing the flag. -/
def trigger {A : Type} (m : SignalManagerE A) : SignalManagerE A :=
  if m.dirty then ⟨m.v, m.v, false, m.setCount + 1⟩ else m

/-- Embedded from `SignalManager::trigger_force` (`signal.rs` 122-125):
set the reactive signal unconditionally and clear the flag. -/
def trigger_force {A : Type} (m : SignalManagerE A) : SignalManagerE A :=
  ⟨m.v, m.v, false, m.setCount + 1⟩

/-- One operation performed on a single `SignalManager` during a
mutation. -/
inductive SigOp (A : Type) where
  | updForce (nv : A)
  | updIfNotEqual (nv : A)
  | trig

/-- Run a sequence of operations on a manager. -/
def runSigOps {A : Type} [DecidableEq A] :
    SignalManagerE A → List (SigOp A) → SignalManagerE A
  | m, [] => m
  | m, .updForce nv :: rest => runSigOps (update_force m nv) rest
  | m, .updIfNotEqual nv :: rest =>
    runSigOps (update_if_not_equal m nv).1 rest
  | m, .trig :: rest => runSigOps (trigger m) rest

/-- Embedded from the `EditBuffer::EditBuffer` arm of
`DocLines::buffer_edit`, restricted to the `screen_lines` manager:
`apply_delta` (`mod.rs` 2605) itself ends with `update_screen_lines`
(an `update_force`, `mod.rs` 2212) followed by `trigger_signals`
(`mod.rs` 2978-2980), and `buffer_edit` then ends with another
`update_screen_lines` (`mod.rs` 2730) and the final `trigger_signals`
(`mod.rs` 2733). -/
def buffer_edit_screen_ops {A : Type} (sl1 sl2 : A) : List (SigOp A) :=
  [.updForce sl1, .trig, .updForce sl2, .trig]

end Signal

namespace Rebuild

/-- Modelled from `delta_compute::Offset` (`delta_compute.rs` is
absent): a one-sided shift applied to indices and offsets by
`OriginLine::adjust`. -/
inductive OffsetM where
  | add (n : Nat)
  | minus (n : Nat)
deriving Repr, DecidableEq

/-- Apply the shift. -/
def OffsetM.adjust : OffsetM → Nat → Nat
  | .add n, v => v + n
  | .minus n, v => v - n

/-- Total length of a list of lines. -/
def sumLen (ls : List String) : Nat := (ls.map String.length).sum

/-- Modelled from `NewLineStyle::adjust` (`style.rs` is absent; the
calls in `line.rs` 68-69 and 100-101 pass an offset and a line offset):
shift the absolute fields — the origin line and the buffer interval —
leaving the line-relative fields untouched. -/
def styleAdjust (offset line_offset : OffsetM) (st : Styles.NewLineStyleE) :
    Styles.NewLineStyleE :=
  { st with
    origin_line := line_offset.adjust st.origin_line
    start_of_buffer := offset.adjust st.start_of_buffer
    end_of_buffer := offset.adjust st.end_of_buffer }

/-- Modelled from the spec (StyleProjector): the semantic styles of one
origin line, derived from the line's text by `styOf` (each entry a
relative start column, stop column and color) and anchored at the
line's index and start offset. -/
def lineStylesOf (styOf : String → List (Nat × Nat × Nat)) (c : String)
    (idx off : Nat) : List Styles.NewLineStyleE :=
  (styOf c).map (fun r =>
    ⟨idx, r.1, r.2.1 - r.1, off + r.1, off + r.2.1, r.2.2, r.1, r.2.1⟩)

/-- Embedded from `OriginLine` (`line.rs` 29-37): line index, start
offset, byte length, the line's text, the phantom data and the
semantic styles. -/
structure OriginLineM where
  line_index : Nat
  start_offset : Nat
  len : Nat
  content : String
  phantom : Phantom.PLine
  semantic_styles : List Styles.NewLineStyleE
deriving Repr, DecidableEq

/-- Modelled from the spec (LineBuilder step 1; `update_lines.rs`
absent): build one `OriginLine` from its text, line index and start
offset; the phantom insertions (`insOf`) and the style spans (`styOf`)
are derived from the text. -/
def mkOriginLine (insOf : String → List Phantom.Ins)
    (styOf : String → List (Nat × Nat × Nat)) (c : String) (idx off : Nat) :
    OriginLineM :=
  ⟨idx, off, c.length, c, ⟨idx, off, c.length, insOf c⟩,
    lineStylesOf styOf c idx off⟩

/-- Embedded from `OriginLine::adjust` (`line.rs` 62-71): shift the
line index, the start offset, the phantom's line and line-start offset,
and the styles; text, length and the insertions are untouched. -/
def OriginLineM.adjust (ol : OriginLineM) (offset line_offset : OffsetM) :
    OriginLineM :=
  ⟨line_offset.adjust ol.line_index, offset.adjust ol.start_offset,
    ol.len, ol.content,
    ⟨line_offset.adjust ol.phantom.line, offset.adjust ol.phantom.offsetOfLine,
      ol.phantom.originTextLen, ol.phantom.inserts⟩,
    ol.semantic_styles.map (styleAdjust offset line_offset)⟩

/-- Build one `OriginLine` per buffer line, tracking the line index and
the running start offset. -/
def buildLines (insOf : String → List Phantom.Ins)
    (styOf : String → List (Nat × Nat × Nat)) :
    List String → Nat → Nat → List OriginLineM
  | [], _, _ => []
  | c :: rest, idx, off =>
    mkOriginLine insOf styOf c idx off
      :: buildLines insOf styOf rest (idx + 1) (off + c.length)

/-- The `origin_lines` array of a full rebuild from scratch (the
`OriginLinesDelta::default()` path). -/
def fullOrigin (insOf : String → List Phantom.Ins)
    (styOf : String → List (Nat × Nat × Nat)) (lines : List String) :
    List OriginLineM :=
  buildLines insOf styOf lines 0 0

/-- Modelled from the spec (DeltaResolver): the offset shift of the
lines after the edited window. -/
def offsetDeltaOf (oldWin newWin : List String) : OffsetM :=
  if sumLen oldWin ≤ sumLen newWin then .add (sumLen newWin - sumLen oldWin)
  else .minus (sumLen oldWin - sumLen newWin)

/-- Modelled from the spec (DeltaResolver): the line-index shift of the
lines after the edited window. -/
def lineDeltaOf (oldWin newWin : List String) : OffsetM :=
  if oldWin.length ≤ newWin.length then .add (newWin.length - oldWin.length)
  else .minus (oldWin.length - newWin.length)

/-- Modelled from the spec (`update_lines_new` driven by the
`OriginLinesDelta` of an edit replacing lines `[s, s + kOld)` by
`newLines`): the `origin_lines` of the incremental path — reuse the
built lines before the window verbatim, rebuild the window, and reuse
the built lines after the window adjusted by the resolved deltas. -/
def incrementalOrigin (insOf : String → List Phantom.Ins)
    (styOf : String → List (Nat × Nat × Nat))
    (oldLines newLines : List String) (s kOld : Nat) : List OriginLineM :=
  (fullOrigin insOf styOf oldLines).take s
    ++ buildLines insOf styOf newLines s (sumLen (oldLines.take s))
    ++ ((fullOrigin insOf styOf oldLines).drop (s + kOld)).map (fun ol =>
        ol.adjust (offsetDeltaOf ((oldLines.drop s).take kOld) newLines)
          (lineDeltaOf ((oldLines.drop s).take kOld) newLines))

/-- Modelled from the spec (PhantomTextAssembler): whether a line's
fold placeholder swallows the next line, derived from the line's text
by `sw`; reading past the buffer end sees an empty line. -/
def swallowAt (sw : String → Bool) (lines : List String) (i : Nat) : Bool :=
  sw (lines.getD i "")

/-- Buffer offset of the start of line `j`. -/
def offsetOfLine (lines : List String) (j : Nat) : Nat :=
  sumLen (lines.take j)

/-- The concatenated text of origin lines `a` through `b` inclusive
(LineBuilder step 2). -/
def mergedText (lines : List String) (a b : Nat) : String :=
  String.join ((lines.drop a).take (b + 1 - a))

/-- Embedded from the merge loop of `new_text_layout_2` (`mod.rs`
1478-1497): the styles of the lines of one folded group, each line's
styles shifted by the running text length merged before it. -/
def mergedStyles (styOf : String → List (Nat × Nat × Nat)) :
    List String → Nat → Nat → Nat → List Styles.NewLineStyleE
  | [], _, _, _ => []
  | c :: rest, idx, off, delta =>
    Styles.semantic_styles_shift delta (lineStylesOf styOf c idx off)
      ++ mergedStyles styOf rest (idx + 1) (off + c.length) (delta + c.length)

/-- Embedded from `OriginFoldedLine` (`line.rs` 76-87): folded-line
index, inclusive origin-line interval, origin buffer interval, the
merged text, the wrapped layout's sub-line glyph counts, and the merged
semantic styles. -/
structure FoldedM where
  line_index : Nat
  origin_line_start : Nat
  origin_line_end : Nat
  origin_interval_start : Nat
  origin_interval_stop : Nat
  text : String
  subGlyphs : List Nat
  semantic_styles : List Styles.NewLineStyleE
deriving Repr, DecidableEq

/-- Embedded from `OriginFoldedLine::adjust` (`line.rs` 92-103): shift
the origin interval by `offset`, the origin lines by `line_offset`,
replace the folded-line index, and adjust the styles; the text and the
layout shape are position independent. -/
def FoldedM.adjust (fl : FoldedM) (offset line_offset : OffsetM)
    (line_index : Nat) : FoldedM :=
  ⟨line_index, line_offset.adjust fl.origin_line_start,
    line_offset.adjust fl.origin_line_end,
    offset.adjust fl.origin_interval_start,
    offset.adjust fl.origin_interval_stop,
    fl.text, fl.subGlyphs,
    fl.semantic_styles.map (styleAdjust offset line_offset)⟩

/-- Build one folded line for the origin-line interval `iv` of buffer
`lines`, numbered `i`; the external shaper (`layoutOf`) wraps the
merged text into sub-line glyph counts. -/
def mkFolded (styOf : String → List (Nat × Nat × Nat))
    (layoutOf : String → List Nat) (lines : List String) (iv : Nat × Nat)
    (i : Nat) : FoldedM :=
  ⟨i, iv.1, iv.2, offsetOfLine lines iv.1, offsetOfLine lines (iv.2 + 1),
    mergedText lines iv.1 iv.2, layoutOf (mergedText lines iv.1 iv.2),
    mergedStyles styOf ((lines.drop iv.1).take (iv.2 + 1 - iv.1)) iv.1
      (offsetOfLine lines iv.1) 0⟩

/-- Build the folded lines of a list of intervals, numbering from `i`. -/
def mkFoldedList (styOf : String → List (Nat × Nat × Nat))
    (layoutOf : String → List Nat) (lines : List String) :
    List (Nat × Nat) → Nat → List FoldedM
  | [], _ => []
  | iv :: rest, i =>
    mkFolded styOf layoutOf lines iv i
      :: mkFoldedList styOf layoutOf lines rest (i + 1)

/-- Re-number and adjust a run of reused folded lines (spec 4.5:
"folded lines entirely outside the touched byte range are reused
verbatim (only their indices are shifted)"). -/
def adjustFoldedFrom (offset line_offset : OffsetM) :
    List FoldedM → Nat → List FoldedM
  | [], _ => []
  | fl :: rest, i =>
    fl.adjust offset line_offset i
      :: adjustFoldedFrom offset line_offset rest (i + 1)

/-- The `origin_folded_lines` array of a full rebuild. -/
def fullFolded (sw : String → Bool) (styOf : String → List (Nat × Nat × Nat))
    (layoutOf : String → List Nat) (lines : List String) : List FoldedM :=
  mkFoldedList styOf layoutOf lines
    (Lines.buildIntervals (swallowAt sw lines) (lines.length - 1) 0
      lines.length) 0

/-- The post-edit buffer of an edit replacing lines `[s, s + kOld)` by
`newLines`. -/
def newBufOf (oldLines newLines : List String) (s kOld : Nat) :
    List String :=
  oldLines.take s ++ newLines ++ oldLines.drop (s + kOld)

/-- The folded lines of the old array that lie entirely before the
edited window (reused verbatim by the incremental path). -/
def prefixFolded (sw : String → Bool)
    (styOf : String → List (Nat × Nat × Nat))
    (layoutOf : String → List Nat) (oldLines : List String) (s : Nat) :
    List FoldedM :=
  (fullFolded sw styOf layoutOf oldLines).filter
    (fun fl => decide (fl.origin_line_end < s))

/-- The folded-line intervals rebuilt for the edited window `[s, s +
kNew)` of the post-edit buffer. -/
def windowIntervals (sw : String → Bool) (newBuf : List String)
    (s kNew : Nat) : List (Nat × Nat) :=
  Lines.buildIntervals (swallowAt sw newBuf) (s + kNew - 1) s kNew

/-- The folded lines of the old array that lie entirely after the
edited window (reused by the incremental path after adjustment). -/
def suffixFolded (sw : String → Bool)
    (styOf : String → List (Nat × Nat × Nat))
    (layoutOf : String → List Nat) (oldLines : List String) (d1 : Nat) :
    List FoldedM :=
  (fullFolded sw styOf layoutOf oldLines).filter
    (fun fl => decide (d1 ≤ fl.origin_line_start))

/-- The `origin_folded_lines` of the incremental path (spec 4.5): reuse
the folded lines before the window verbatim, rebuild the window, and
reuse the folded lines after the window with their indices and offsets
shifted by the resolved deltas. -/
def incrementalFolded (sw : String → Bool)
    (styOf : String → List (Nat × Nat × Nat))
    (layoutOf : String → List Nat) (oldLines newLines : List String)
    (s kOld : Nat) : List FoldedM :=
  prefixFolded sw styOf layoutOf oldLines s
    ++ mkFoldedList styOf layoutOf (newBufOf oldLines newLines s kOld)
        (windowIntervals sw (newBufOf oldLines newLines s kOld) s
          newLines.length)
        (prefixFolded sw styOf layoutOf oldLines s).length
    ++ adjustFoldedFrom (offsetDeltaOf ((oldLines.drop s).take kOld) newLines)
        (lineDeltaOf ((oldLines.drop s).take kOld) newLines)
        (suffixFolded sw styOf layoutOf oldLines (s + kOld))
        ((prefixFolded sw styOf layoutOf oldLines s).length
          + (windowIntervals sw (newBufOf oldLines newLines s kOld) s
              newLines.length).length)

/-- Embedded from `VisualLine` (`line.rs` 216-225), restricted to the
fields derived from the folded tier. -/
structure VisualM where
  line_index : Nat
  origin_interval_start : Nat
  origin_interval_stop : Nat
  visual_interval_start : Nat
  visual_interval_stop : Nat
  origin_folded_line : Nat
  origin_folded_line_sub_index : Nat
deriving Repr, DecidableEq

/-- One `VisualLine` per wrapped sub-line of a folded line (LineBuilder
step 4). -/
def emitVisuals (fl : FoldedM) : List (Nat × Nat) → Nat → Nat → List VisualM
  | [], _, _ => []
  | iv :: rest, vi, k =>
    ⟨vi, fl.origin_interval_start, fl.origin_interval_stop, iv.1, iv.2,
      fl.line_index, k⟩ :: emitVisuals fl rest (vi + 1) (k + 1)

/-- The `visual_lines` array derived from a folded-line array; per the
spec lifecycle, `VisualLine[]` is always derived from the folded tier
and never mutated independently. -/
def visualFromFolded : List FoldedM → Nat → List VisualM
  | [], _ => []
  | fl :: rest, vi =>
    emitVisuals fl (Lines.buildVisualIntervals fl.subGlyphs 0) vi 0
      ++ visualFromFolded rest (vi + fl.subGlyphs.length)

/-- The `visual_lines` of a full rebuild. -/
def fullVisual (sw : String → Bool) (styOf : String → List (Nat × Nat × Nat))
    (layoutOf : String → List Nat) (lines : List String) : List VisualM :=
  visualFromFolded (fullFolded sw styOf layoutOf lines) 0

/-- The `visual_lines` of the incremental path. -/
def incrementalVisual (sw : String → Bool)
    (styOf : String → List (Nat × Nat × Nat))
    (layoutOf : String → List Nat) (oldLines newLines : List String)
    (s kOld : Nat) : List VisualM :=
  visualFromFolded
    (incrementalFolded sw styOf layoutOf oldLines newLines s kOld) 0

end Rebuild

namespace Click

/-- Modelled from the spec: the screen-lines y lookup
(`visual_line_of_y`; `screen_lines.rs` is absent) — the visual line a
viewport y coordinate falls on, with coordinates in tenths of a pixel
to keep the arithmetic exact. -/
def visual_line_of_y (yTenths lineHeightTenths : Nat) : Nat :=
  yTenths / lineHeightTenths

/-- Modelled from the spec: the external shaper's hit test for a point
past the last character of a sub-line with `glyphCount` glyphs — the
hit index is the glyph count and the point is not inside the text. -/
def hit_point_past_line (glyphCount : Nat) : Nat × Bool :=
  (glyphCount, false)

/-- Embedded from `DocLines::buffer_offset_of_click` (`mod.rs`
916-940), with the external collaborators passed in: `hit` is the
shaper hit-test result for the clicked point, `phantom` the hit visual
line's phantom data, and `offsetOfLineCol` the buffer's
`offset_of_line_col`. -/
def buffer_offset_of_click (hit : Nat × Bool) (phantom : Phantom.PLine)
    (offsetOfLineCol : Nat → Nat → Nat) : Nat × Bool :=
  (offsetOfLineCol (Phantom.cursor_position_of_final_col phantom hit.1).1
      (Phantom.cursor_position_of_final_col phantom hit.1).2.1,
    hit.2)

/-- Modelled from the spec: `offset_of_line_col` of the reference
document of `test_lines.rs`, whose first line `pub fn main() {` holds
15 characters and ends with CRLF, so line 1 starts at offset 17. -/
def referenceOffsetOfLineCol (line col : Nat) : Nat :=
  (if line = 0 then 0 else 17) + col

end Click

namespace RevGuard

/-- Embedded from `DocLines` (`mod.rs` 173-214), restricted to the
revision-guarded state: buffer revision and pristine flag, the pristine
signal, the syntax styles, and the LSP semantic-style state; `rebuilds`
models the rebuild pipeline (`update_lines_new` and the subsequent
updates) the successful paths run. -/
structure DocStateE where
  rev : Nat
  pristine : Bool
  pristineSig : Signal.SignalManagerE Bool
  syntaxStyles : Option (List Styles.SpanE)
  styleFromLsp : Bool
  semanticStyles : Option (List Styles.SpanE)
  rebuilds : Nat
deriving Repr, DecidableEq

/-- Embedded from `DocLines::set_syntax` (`mod.rs` 3030-3043): store
the syntax; when styles come from the LSP return `false` without a
rebuild, otherwise rebuild and return `true`. -/
def set_syntax (s : DocStateE) (newStyles : Option (List Styles.SpanE)) :
    Bool × DocStateE :=
  let s1 := { s with syntaxStyles := newStyles }
  if s1.styleFromLsp then (false, s1)
  else (true, { s1 with rebuilds := s1.rebuilds + 1 })

/-- Embedded from `DocLines::set_syntax_with_rev` (`mod.rs`
3023-3028): a stale revision returns `Ok(false)` before touching
anything. -/
def set_syntax_with_rev (s : DocStateE)
    (newStyles : Option (List Styles.SpanE)) (rev : Nat) : Bool × DocStateE :=
  if s.rev ≠ rev then (false, s) else set_syntax s newStyles

/-- Embedded from `DocLines::update_semantic_styles_from_lsp`
(`mod.rs` 3071-3087): a stale revision returns `Ok(false)` before
touching anything; otherwise switch to LSP styles, store them and
rebuild. -/
def update_semantic_styles_from_lsp (s : DocStateE)
    (styles : List Styles.SpanE) (rev : Nat) : Bool × DocStateE :=
  if s.rev ≠ rev then (false, s)
  else
    (true,
      { s with
        styleFromLsp := true
        semanticStyles := some styles
        rebuilds := s.rebuilds + 1 })

/-- Embedded from the `SetPristine` arm of `DocLines::buffer_edit`
(`mod.rs` 2609-2618), restricted to the pristine signal: a matching
revision sets the buffer pristine, updates the signal and triggers;
a stale one returns `Ok(false)` leaving everything unchanged. -/
def buffer_edit_set_pristine (s : DocStateE) (recv : Nat) :
    Bool × DocStateE :=
  if recv = s.rev then
    (true,
      { s with
        pristine := true
        pristineSig :=
          Signal.trigger (Signal.update_if_not_equal s.pristineSig true).1 })
  else (false, s)

end RevGuard

-- Theorems follow; all definitions stand above this line.

namespace Phantom

theorem sumShift_cons (p : Ins) (rest : List Ins) (c : Nat) (b : Bool) :
    sumShift (p :: rest) c b =
      (if p.col < c ∨ (p.col = c ∧ b = false) then p.len else 0) +
        sumShift rest c b := by
  simp only [sumShift, List.filter_cons]
  by_cases h1 : p.col < c
  · simp [h1]
  · by_cases h2 : p.col = c
    · cases b <;> simp [h1, h2]
    · simp [h1, h2]

theorem sumShift_eq_zero (ps : List Ins) (c : Nat) (b : Bool)
    (h : ∀ q ∈ ps, c < q.col) : sumShift ps c b = 0 := by
  induction ps with
  | nil => rfl
  | cons p rest ih =>
    rw [sumShift_cons]
    have hp := h p (List.mem_cons_self _ _)
    have hrest : sumShift rest c b = 0 :=
      ih (fun q hq => h q (List.mem_cons_of_mem _ hq))
    have : ¬(p.col < c ∨ (p.col = c ∧ b = false)) := by
      push_neg
      exact ⟨by omega, fun h' => absurd h' (by omega)⟩
    simp [this, hrest]

theorem originColOfFinal_of_forall_le (ps : List Ins) (f : Nat)
    (h : ∀ q ∈ ps, f ≤ q.col) : originColOfFinal ps f = f := by
  cases ps with
  | nil => rfl
  | cons p rest =>
    have hp := h p (List.mem_cons_self _ _)
    simp [originColOfFinal, hp]

theorem originColOfFinal_ge (ps : List Ins) (f m : Nat)
    (hcols : ∀ q ∈ ps, m ≤ q.col) (hf : m ≤ f) :
    m ≤ originColOfFinal ps f := by
  induction ps generalizing f with
  | nil => exact hf
  | cons p rest ih =>
    have hp := hcols p (List.mem_cons_self _ _)
    by_cases h1 : f ≤ p.col
    · simpa [originColOfFinal, h1] using hf
    · by_cases h2 : f < p.col + p.len
      · simpa [originColOfFinal, h1, h2] using hp
      · have : m ≤ originColOfFinal rest (f - p.len) :=
          ih (f - p.len) (fun q hq => hcols q (List.mem_cons_of_mem _ hq))
            (by omega)
        simpa [originColOfFinal, h1, h2] using this

theorem sumShift_congr_b (ps : List Ins) (c : Nat) (b1 b2 : Bool)
    (h : ∀ q ∈ ps, q.col ≠ c) : sumShift ps c b1 = sumShift ps c b2 := by
  induction ps with
  | nil => rfl
  | cons p rest ih =>
    rw [sumShift_cons, sumShift_cons]
    have hp := h p (List.mem_cons_self _ _)
    have hrest := ih (fun q hq => h q (List.mem_cons_of_mem _ hq))
    by_cases h1 : p.col < c
    · simp [h1, hrest]
    · simp [h1, hp, hrest]

theorem originColOfFinal_roundtrip (ps : List Ins) (c : Nat) (b : Bool)
    (hsorted : ps.Pairwise (fun a b => a.col < b.col))
    (hpos : ∀ p ∈ ps, 0 < p.len) :
    originColOfFinal ps (c + sumShift ps c b) = c := by
  induction ps with
  | nil => simp [originColOfFinal, sumShift]
  | cons p rest ih =>
    rw [List.pairwise_cons] at hsorted
    obtain ⟨hlt, hrest⟩ := hsorted
    have hplen := hpos p (List.mem_cons_self _ _)
    have hpos' : ∀ q ∈ rest, 0 < q.len :=
      fun q hq => hpos q (List.mem_cons_of_mem _ hq)
    rw [sumShift_cons]
    by_cases hkeep : p.col < c ∨ (p.col = c ∧ b = false)
    · rw [if_pos hkeep]
      rcases hkeep with h1 | ⟨h2, hb⟩
      · -- insertion strictly before `c`
        have hf1 : ¬(c + (p.len + sumShift rest c b) ≤ p.col) := by omega
        have hf2 : ¬(c + (p.len + sumShift rest c b) < p.col + p.len) := by
          omega
        have heq : c + (p.len + sumShift rest c b) - p.len =
            c + sumShift rest c b := by omega
        simp only [originColOfFinal, hf1, hf2, if_false, heq]
        exact ih hrest hpos'
      · -- insertion anchored exactly at `c`, cursor after it
        subst h2
        have hz : sumShift rest p.col b = 0 :=
          sumShift_eq_zero _ _ _ (fun q hq => hlt q hq)
        have hf1 : ¬(p.col + (p.len + sumShift rest p.col b) ≤ p.col) := by
          omega
        have hf2 : ¬(p.col + (p.len + sumShift rest p.col b) <
            p.col + p.len) := by omega
        have heq : p.col + (p.len + sumShift rest p.col b) - p.len =
            p.col := by omega
        simp only [originColOfFinal, hf1, hf2, if_false, heq]
        exact originColOfFinal_of_forall_le _ _ (fun q hq => le_of_lt (hlt q hq))
    · rw [if_neg hkeep]
      push_neg at hkeep
      have hc : c ≤ p.col := hkeep.1
      have hz : sumShift rest c b = 0 :=
        sumShift_eq_zero _ _ _ (fun q hq => lt_of_le_of_lt hc (hlt q hq))
      rw [Nat.zero_add, hz]
      exact originColOfFinal_of_forall_le _ _
        (fun q hq => by
          rcases List.mem_cons.mp hq with h | h
          · exact h ▸ hc
          · exact le_of_lt (lt_of_le_of_lt hc (hlt q h)))

theorem finalCol_of_originCol (ps : List Ins) (f : Nat)
    (hsorted : ps.Pairwise (fun a b => a.col < b.col))
    (hpos : ∀ p ∈ ps, 0 < p.len)
    (hni : strictlyInterior ps f = false) :
    ∃ b : Bool,
      originColOfFinal ps f + sumShift ps (originColOfFinal ps f) b = f := by
  induction ps generalizing f with
  | nil => exact ⟨true, by simp [originColOfFinal, sumShift]⟩
  | cons p rest ih =>
    rw [List.pairwise_cons] at hsorted
    obtain ⟨hlt, hrest⟩ := hsorted
    have hplen := hpos p (List.mem_cons_self _ _)
    have hpos' : ∀ q ∈ rest, 0 < q.len :=
      fun q hq => hpos q (List.mem_cons_of_mem _ hq)
    by_cases h1 : f ≤ p.col
    · -- before (or at) the anchor: take the cursor before the insertion
      refine ⟨true, ?_⟩
      rw [originColOfFinal, if_pos h1, sumShift_cons]
      have hz : sumShift rest f true = 0 :=
        sumShift_eq_zero _ _ _
          (fun q hq => lt_of_le_of_lt h1 (hlt q hq))
      have hnk : ¬(p.col < f ∨ (p.col = f ∧ true = false)) := by
        push_neg
        exact ⟨by omega, fun h' => by simp⟩
      rw [if_neg hnk, hz]
      simp
    · by_cases h2 : f < p.col + p.len
      · -- strictly interior, excluded by hypothesis
        exfalso
        have : strictlyInterior (p :: rest) f = true := by
          simp [strictlyInterior, h1, h2]
        rw [hni] at this
        exact Bool.false_ne_true this
      · -- past the insertion: recurse
        have hni' : strictlyInterior rest (f - p.len) = false := by
          simpa [strictlyInterior, h1, h2] using hni
        obtain ⟨b, hb⟩ := ih (f - p.len) hrest hpos' hni'
        set c' := originColOfFinal rest (f - p.len) with hc'
        have hcge : p.col ≤ c' :=
          originColOfFinal_ge rest (f - p.len) p.col
            (fun q hq => le_of_lt (hlt q hq)) (by omega)
        have hunfold : originColOfFinal (p :: rest) f = c' := by
          simp [originColOfFinal, h1, h2, hc']
        rcases Nat.lt_or_ge p.col c' with hstrict | hge
        · -- the head insertion is strictly before the origin column
          refine ⟨b, ?_⟩
          rw [hunfold, sumShift_cons, if_pos (Or.inl hstrict)]
          omega
        · -- the head insertion is anchored exactly at the origin column
          have hceq : c' = p.col := by omega
          refine ⟨false, ?_⟩
          rw [hunfold, sumShift_cons, if_pos (Or.inr ⟨hceq.symm, rfl⟩)]
          have hbeq : sumShift rest c' b = sumShift rest c' false :=
            sumShift_congr_b _ _ _ _
              (fun q hq => by have := hlt q hq; omega)
          omega

end Phantom

/-- C2: for a well-formed phantom line, mapping an origin column forward
through `final_col_of_col` and back through
`cursor_position_of_final_col` returns the same origin line, column and
buffer offset, and for every final column not strictly interior to an
insertion the two maps are mutually inverse (for a suitable cursor
side). -/
theorem claim_c2_phantom_roundtrip (pl : Phantom.PLine) (hw : pl.wf)
    (c : Nat) (b : Bool) (f : Nat)
    (hf : Phantom.strictlyInterior pl.inserts f = false) :
    Phantom.cursor_position_of_final_col pl (Phantom.final_col_of_col pl c b)
      = (pl.line, c, pl.offsetOfLine + c) ∧
    ∃ b2 : Bool,
      Phantom.final_col_of_col pl
        (Phantom.cursor_position_of_final_col pl f).2.1 b2 = f := by
  obtain ⟨hsorted, hpos⟩ := hw
  constructor
  · have h := Phantom.originColOfFinal_roundtrip pl.inserts c b hsorted hpos
    simp [Phantom.cursor_position_of_final_col, Phantom.final_col_of_col, h]
  · obtain ⟨b2, hb2⟩ :=
      Phantom.finalCol_of_originCol pl.inserts f hsorted hpos hf
    exact ⟨b2, by
      simpa [Phantom.cursor_position_of_final_col,
        Phantom.final_col_of_col] using hb2⟩

/-- Witness for C2 at the inlay-hint shape of the test data: line 6 with
a single 3-character insertion (": A") anchored at column 9. -/
theorem claim_c2_phantom_roundtrip_witness :
    Phantom.cursor_position_of_final_col ⟨6, 100, 14, [⟨9, 3⟩]⟩
      (Phantom.final_col_of_col ⟨6, 100, 14, [⟨9, 3⟩]⟩ 12 true)
      = (6, 12, 112) ∧
    ∃ b2 : Bool,
      Phantom.final_col_of_col ⟨6, 100, 14, [⟨9, 3⟩]⟩
        (Phantom.cursor_position_of_final_col ⟨6, 100, 14, [⟨9, 3⟩]⟩ 17).2.1
        b2 = 17 :=
  claim_c2_phantom_roundtrip ⟨6, 100, 14, [⟨9, 3⟩]⟩ (by decide) 12 true 17
    (by decide)

namespace Lines

theorem chainEnd_ge (swallow : Nat → Bool) (s limitLine : Nat) :
    s ≤ chainEnd swallow s limitLine := by
  induction s, limitLine using Lines.chainEnd.induct swallow with
  | case1 s limitLine h ih =>
    rw [chainEnd, dif_pos h]
    omega
  | case2 s limitLine h =>
    rw [chainEnd, dif_neg h]

theorem chainEnd_le (swallow : Nat → Bool) (s limitLine : Nat)
    (hs : s ≤ limitLine) : chainEnd swallow s limitLine ≤ limitLine := by
  induction s, limitLine using Lines.chainEnd.induct swallow with
  | case1 s limitLine h ih =>
    rw [chainEnd, dif_pos h]
    exact ih (by omega)
  | case2 s limitLine h =>
    rw [chainEnd, dif_neg h]
    exact hs

theorem buildIntervals_zero (swallow : Nat → Bool) (limitLine s : Nat) :
    buildIntervals swallow limitLine s 0 = [] := by
  rw [buildIntervals]

theorem buildIntervals_succ (swallow : Nat → Bool) (limitLine s f : Nat) :
    buildIntervals swallow limitLine s (f + 1) =
      (s, chainEnd swallow s limitLine) ::
        buildIntervals swallow limitLine (chainEnd swallow s limitLine + 1)
          (f - (chainEnd swallow s limitLine - s)) := by
  rw [buildIntervals]

theorem buildIntervals_cover (swallow : Nat → Bool) (n : Nat) :
    ∀ fuel s l, s + fuel = n → s ≤ l → l < n →
      ∃ iv ∈ buildIntervals swallow (n - 1) s fuel, iv.1 ≤ l ∧ l ≤ iv.2 := by
  intro fuel
  induction fuel using Nat.strong_induction_on with
  | _ fuel ih =>
    intro s l hsf hsl hln
    match fuel, hsf with
    | 0, hsf => omega
    | fuel' + 1, hsf =>
      have hse : s ≤ chainEnd swallow s (n - 1) := chainEnd_ge swallow s (n - 1)
      have hen : chainEnd swallow s (n - 1) ≤ n - 1 :=
        chainEnd_le swallow s (n - 1) (by omega)
      rw [buildIntervals_succ]
      by_cases hle : l ≤ chainEnd swallow s (n - 1)
      · exact ⟨(s, chainEnd swallow s (n - 1)),
          List.mem_cons_self _ _, hsl, hle⟩
      · have hlt : fuel' - (chainEnd swallow s (n - 1) - s) < fuel' + 1 := by
          omega
        obtain ⟨iv, hmem, h1, h2⟩ :=
          ih _ hlt (chainEnd swallow s (n - 1) + 1) l (by omega) (by omega) hln
        exact ⟨iv, List.mem_cons_of_mem _ hmem, h1, h2⟩

theorem buildIntervals_props (swallow : Nat → Bool) (n : Nat) :
    ∀ fuel s, s + fuel = n →
      (∀ iv ∈ buildIntervals swallow (n - 1) s fuel,
         s ≤ iv.1 ∧ iv.1 ≤ iv.2 ∧ iv.2 ≤ n - 1) ∧
      List.Chain' (fun a b => b.1 = a.2 + 1)
        (buildIntervals swallow (n - 1) s fuel) ∧
      List.Pairwise (fun a b => a.2 < b.1)
        (buildIntervals swallow (n - 1) s fuel) ∧
      (0 < fuel →
        ∃ tail, buildIntervals swallow (n - 1) s fuel
          = (s, chainEnd swallow s (n - 1)) :: tail) := by
  intro fuel
  induction fuel using Nat.strong_induction_on with
  | _ fuel ih =>
    intro s hsf
    match fuel, hsf with
    | 0, hsf =>
      rw [buildIntervals_zero]
      exact ⟨fun iv h => absurd h (List.not_mem_nil _),
        List.chain'_nil, List.Pairwise.nil, fun h => absurd h (by omega)⟩
    | fuel' + 1, hsf =>
      have hse : s ≤ chainEnd swallow s (n - 1) := chainEnd_ge swallow s (n - 1)
      have hen : chainEnd swallow s (n - 1) ≤ n - 1 :=
        chainEnd_le swallow s (n - 1) (by omega)
      have hlt : fuel' - (chainEnd swallow s (n - 1) - s) < fuel' + 1 := by
        omega
      obtain ⟨ihb, ihc, ihp, ihh⟩ :=
        ih _ hlt (chainEnd swallow s (n - 1) + 1) (by omega)
      rw [buildIntervals_succ]
      refine ⟨?_, ?_, ?_, ?_⟩
      · intro iv hiv
        rcases List.mem_cons.mp hiv with h | h
        · subst h
          exact ⟨le_refl _, hse, hen⟩
        · obtain ⟨b1, b2, b3⟩ := ihb iv h
          exact ⟨by omega, b2, b3⟩
      · rw [List.chain'_cons']
        refine ⟨?_, ihc⟩
        intro y hy
        rcases hfz : fuel' - (chainEnd swallow s (n - 1) - s) with _ | fz
        · rw [hfz, buildIntervals_zero] at hy
          simp at hy
        · obtain ⟨tail, htail⟩ := ihh (by omega)
          rw [hfz] at htail
          rw [hfz, htail] at hy
          simp only [List.head?_cons, Option.mem_def, Option.some.injEq] at hy
          subst hy
          rfl
      · rw [List.pairwise_cons]
        refine ⟨?_, ihp⟩
        intro iv hiv
        obtain ⟨b1, _, _⟩ := ihb iv hiv
        simp only
        omega
      · intro _
        exact ⟨_, rfl⟩

theorem buildFoldedLinesAux_mem (glyphs : Nat → List Nat)
    (ph : Nat → Phantom.PLine) (ivs : List (Nat × Nat)) (iv : Nat × Nat)
    (hiv : iv ∈ ivs) :
    ∀ i, ∃ fl ∈ buildFoldedLinesAux glyphs ph ivs i,
      fl.origin_line_start = iv.1 ∧ fl.origin_line_end = iv.2 := by
  induction ivs with
  | nil => exact absurd hiv (List.not_mem_nil _)
  | cons hd tl ihl =>
    intro i
    rcases List.mem_cons.mp hiv with h | h
    · subst h
      exact ⟨⟨i, iv.1, iv.2, glyphs i, ph i⟩, List.mem_cons_self _ _, rfl, rfl⟩
    · obtain ⟨fl, hmem, h1, h2⟩ := ihl h (i + 1)
      exact ⟨fl, List.mem_cons_of_mem _ hmem, h1, h2⟩

theorem buildVisualIntervals_bounds (gs : List Nat) (c : Nat) :
    ∀ iv ∈ buildVisualIntervals gs c, c ≤ iv.1 ∧ iv.1 ≤ iv.2 := by
  induction gs generalizing c with
  | nil => exact fun iv h => absurd h (List.not_mem_nil _)
  | cons g rest ihg =>
    intro iv hiv
    rcases List.mem_cons.mp hiv with h | h
    · subst h
      exact ⟨le_refl _, by omega⟩
    · obtain ⟨h1, h2⟩ := ihg (c + g) iv h
      exact ⟨by omega, h2⟩

theorem buildVisualIntervals_chain (gs : List Nat) (c : Nat) :
    List.Chain' (fun a b => a.2 = b.1) (buildVisualIntervals gs c) := by
  induction gs generalizing c with
  | nil => exact List.chain'_nil
  | cons g rest ihg =>
    rw [buildVisualIntervals, List.chain'_cons']
    refine ⟨?_, ihg (c + g)⟩
    intro y hy
    cases rest with
    | nil => simp [buildVisualIntervals] at hy
    | cons g2 rest2 =>
      simp only [buildVisualIntervals, List.head?_cons, Option.mem_def,
        Option.some.injEq] at hy
      subst hy
      rfl

theorem buildVisualIntervals_pairwise (gs : List Nat) (c : Nat) :
    List.Pairwise (fun a b => a.2 ≤ b.1) (buildVisualIntervals gs c) := by
  induction gs generalizing c with
  | nil => exact List.Pairwise.nil
  | cons g rest ihg =>
    rw [buildVisualIntervals, List.pairwise_cons]
    refine ⟨?_, ihg (c + g)⟩
    intro iv hiv
    obtain ⟨h1, _⟩ := buildVisualIntervals_bounds rest (c + g) iv hiv
    simpa using h1

end Lines

/-- C1: for every buffer line count and fold-chain configuration, the
folded-line origin intervals produced by a rebuild are consecutive,
non-overlapping and cover exactly the full origin-line range, so the
linear search `folded_line_of_origin_line` succeeds for every origin
line; and the visual-column intervals within one folded line are
contiguous and non-overlapping. -/
theorem claim_c1_partition (swallow : Nat → Bool) (glyphs : Nat → List Nat)
    (ph : Nat → Phantom.PLine) (n : Nat) (hn : 0 < n) (l : Nat) (hl : l < n)
    (gs : List Nat) (c : Nat) :
    List.Chain' (fun a b => b.1 = a.2 + 1) (Lines.foldedIntervals swallow n) ∧
    List.Pairwise (fun a b => a.2 < b.1) (Lines.foldedIntervals swallow n) ∧
    (∀ iv ∈ Lines.foldedIntervals swallow n, iv.1 ≤ iv.2 ∧ iv.2 ≤ n - 1) ∧
    (∃ tail, Lines.foldedIntervals swallow n
        = (0, Lines.chainEnd swallow 0 (n - 1)) :: tail) ∧
    (∃ iv ∈ Lines.foldedIntervals swallow n, iv.1 ≤ l ∧ l ≤ iv.2) ∧
    (Lines.folded_line_of_origin_line
        (Lines.buildFoldedLines swallow glyphs ph n) l).isSome ∧
    List.Chain' (fun a b => a.2 = b.1) (Lines.buildVisualIntervals gs c) ∧
    List.Pairwise (fun a b => a.2 ≤ b.1) (Lines.buildVisualIntervals gs c) := by
  obtain ⟨hb, hc, hp, hh⟩ :=
    Lines.buildIntervals_props swallow n n 0 (by omega)
  obtain ⟨iv, hmem, hiv1, hiv2⟩ :=
    Lines.buildIntervals_cover swallow n n 0 l (by omega) (Nat.zero_le l) hl
  refine ⟨hc, hp, fun iv h => (hb iv h).2, hh hn, ⟨iv, hmem, hiv1, hiv2⟩,
    ?_, Lines.buildVisualIntervals_chain gs c,
    Lines.buildVisualIntervals_pairwise gs c⟩
  obtain ⟨fl, hflmem, h1, h2⟩ :=
    Lines.buildFoldedLinesAux_mem glyphs ph (Lines.foldedIntervals swallow n)
      iv hmem 0
  refine List.find?_isSome.mpr ⟨fl, hflmem, ?_⟩
  simp only [h1, h2, Bool.and_eq_true, decide_eq_true_eq]
  exact ⟨hiv1, hiv2⟩

/-- Witness for C1 on a three-line buffer whose second line swallows its
successor, and a folded line wrapped into three sub-lines (one empty). -/
theorem claim_c1_partition_witness :
    List.Chain' (fun a b => b.1 = a.2 + 1)
      (Lines.foldedIntervals (fun i => i == 1) 3) ∧
    List.Pairwise (fun a b => a.2 < b.1)
      (Lines.foldedIntervals (fun i => i == 1) 3) ∧
    (∀ iv ∈ Lines.foldedIntervals (fun i => i == 1) 3,
      iv.1 ≤ iv.2 ∧ iv.2 ≤ 3 - 1) ∧
    (∃ tail, Lines.foldedIntervals (fun i => i == 1) 3
        = (0, Lines.chainEnd (fun i => i == 1) 0 (3 - 1)) :: tail) ∧
    (∃ iv ∈ Lines.foldedIntervals (fun i => i == 1) 3,
      iv.1 ≤ 2 ∧ 2 ≤ iv.2) ∧
    (Lines.folded_line_of_origin_line
        (Lines.buildFoldedLines (fun i => i == 1) (fun _ => [3])
          (fun i => ⟨i, 0, 0, []⟩) 3) 2).isSome ∧
    List.Chain' (fun a b => a.2 = b.1)
      (Lines.buildVisualIntervals [2, 0, 3] 0) ∧
    List.Pairwise (fun a b => a.2 ≤ b.1)
      (Lines.buildVisualIntervals [2, 0, 3] 0) :=
  claim_c1_partition (fun i => i == 1) (fun _ => [3]) (fun i => ⟨i, 0, 0, []⟩)
    3 (by decide) 2 (by decide) [2, 0, 3] 0

namespace Lines

theorem scanPrev_isSome (gs : List Nat) (hpos : ∀ g ∈ gs, 0 < g) :
    ∀ subIdx i lo, ∃ p, scanPrev gs subIdx i lo = some p := by
  induction gs with
  | nil => exact fun _ _ lo => ⟨(lo, 0), rfl⟩
  | cons g rest ih =>
    intro subIdx i lo
    by_cases h : i < subIdx
    · obtain ⟨p, hp⟩ :=
        ih (fun x hx => hpos x (List.mem_cons_of_mem _ hx)) subIdx (i + 1)
          (lo + g)
      exact ⟨p, by simp [scanPrev, h, hp]⟩
    · have hg := hpos g (List.mem_cons_self _ _)
      exact ⟨(lo, g - 1), by simp [scanPrev, h]; omega⟩

theorem scan_formulas (gs : List Nat) :
    ∀ j i lo g, gs.get? j = some g →
      ∃ lo', scanNext gs (i + j) i lo = (lo', g.max 1 - 1) ∧
        scanPrev gs (i + j) i lo =
          (if g = 0 then none else some (lo', g - 1)) := by
  induction gs with
  | nil =>
    intro j i lo g h
    simp at h
  | cons gh rest ih =>
    intro j i lo g h
    cases j with
    | zero =>
      simp only [List.get?_cons_zero, Option.some.injEq] at h
      subst h
      have hni : ¬i < i + 0 := by omega
      exact ⟨lo, by simp [scanNext, hni], by simp [scanPrev, hni]⟩
    | succ j' =>
      simp only [List.get?_cons_succ] at h
      have hlt : i < i + (j' + 1) := by omega
      have heq : i + (j' + 1) = (i + 1) + j' := by omega
      obtain ⟨lo', h1, h2⟩ := ih j' (i + 1) (lo + gh) g h
      refine ⟨lo', ?_, ?_⟩
      · rw [scanNext, if_pos hlt, heq]
        exact h1
      · rw [scanPrev, if_pos hlt, heq]
        exact h2

end Lines

/-- C6: the last-character determination differs between the stepping
directions — on a target sub-line with glyph count recorded as 0, the
`previous` computation (`glyphs.len() - 1`, unguarded) underflows while
the `next` computation (`glyphs.len().max(1) - 1`) yields 0; on a
nonempty sub-line the two agree at `glyphs.len() - 1`. -/
theorem claim_c6_last_char_formulas (gs : List Nat) (subIdx lo g : Nat)
    (hg : gs.get? subIdx = some g) :
    (g = 0 → Lines.scanPrev gs subIdx 0 lo = none ∧
      (Lines.scanNext gs subIdx 0 lo).2 = 0) ∧
    (0 < g → Lines.scanPrev gs subIdx 0 lo
        = some (Lines.scanNext gs subIdx 0 lo) ∧
      (Lines.scanNext gs subIdx 0 lo).2 = g - 1) := by
  obtain ⟨lo', h1, h2⟩ := Lines.scan_formulas gs subIdx 0 lo g hg
  rw [Nat.zero_add] at h1 h2
  constructor
  · intro h0
    subst h0
    rw [h2, h1]
    exact ⟨by simp, rfl⟩
  · intro hpos
    have hne : ¬g = 0 := by omega
    rw [h2, h1, if_neg hne]
    have hmax : g.max 1 = g := Nat.max_eq_left (by omega)
    rw [hmax]
    exact ⟨rfl, rfl⟩

/-- Witness for C6: sub-line glyph counts `[2, 0]`, target sub-index 1
(an empty sub-line). -/
theorem claim_c6_last_char_formulas_witness :
    ((0 : Nat) = 0 → Lines.scanPrev [2, 0] 1 0 7 = none ∧
      (Lines.scanNext [2, 0] 1 0 7).2 = 0) ∧
    (0 < (0 : Nat) → Lines.scanPrev [2, 0] 1 0 7
        = some (Lines.scanNext [2, 0] 1 0 7) ∧
      (Lines.scanNext [2, 0] 1 0 7).2 = 0 - 1) :=
  claim_c6_last_char_formulas [2, 0] 1 7 0 rfl

/-- Counterexample to C4 as stated: `next_visual_line` on a state with a
single visual line panics (it indexes `visual_lines[min(idx, len-2)+1]`
directly), and `last_visual_line` on an empty state panics, instead of
returning a typed error. -/
theorem claim_c4_counterexample :
    Lines.next_visual_line
        ⟨[⟨0, 0, 0, [2], ⟨0, 0, 0, []⟩⟩], [⟨0, 0, 2, 0, 2, 0, 0, 0⟩]⟩ 0 0
      = .panicked ∧
    Lines.last_visual_line ⟨[], []⟩ = .panicked :=
  ⟨rfl, rfl⟩

/-- C4 (amended): the search-based lookups
(`folded_line_of_origin_line`, `visual_line_of_folded_line_and_sub_index`)
never panic for any index and state, and `previous_visual_line` never
panics when every recorded sub-line is nonempty; `last_visual_line` only
panics on an empty visual-line array. -/
theorem claim_c4_amended (s : Lines.DocLinesE) (l fi si idx lo : Nat)
    (hne : s.visual_lines ≠ [])
    (hpos : ∀ fl ∈ s.origin_folded_lines, ∀ g ∈ fl.subGlyphs, 0 < g) :
    Lines.folded_line_of_origin_line_r s l ≠ .panicked ∧
    Lines.visual_line_of_folded_line_and_sub_index s fi si ≠ .panicked ∧
    Lines.last_visual_line s ≠ .panicked ∧
    Lines.previous_visual_line s idx lo ≠ .panicked := by
  refine ⟨?_, ?_, ?_, ?_⟩
  · unfold Lines.folded_line_of_origin_line_r
    cases Lines.folded_line_of_origin_line s.origin_folded_lines l <;> simp
  · unfold Lines.visual_line_of_folded_line_and_sub_index
    cases s.visual_lines.find? (fun vl =>
      vl.origin_folded_line == fi &&
        vl.origin_folded_line_sub_index == si) <;> simp
  · unfold Lines.last_visual_line
    have hlt : s.visual_lines.length - 1 < s.visual_lines.length := by
      have := List.length_pos.mpr hne
      omega
    rw [List.get?_eq_get hlt]
    simp
  · unfold Lines.previous_visual_line
    cases hv : s.visual_lines.get? (max idx 1 - 1) with
    | none => simp
    | some pv =>
      have hf2 : s.origin_folded_lines.get? pv.origin_folded_line
          = s.origin_folded_lines[pv.origin_folded_line]? :=
        List.get?_eq_getElem? s.origin_folded_lines pv.origin_folded_line
      cases hf : s.origin_folded_lines[pv.origin_folded_line]? with
      | none => simp [hf2, hf]
      | some fl =>
        have hmem : fl ∈ s.origin_folded_lines :=
          List.get?_mem (by rw [hf2, hf])
        obtain ⟨p, hp⟩ :=
          Lines.scanPrev_isSome fl.subGlyphs (hpos fl hmem)
            pv.origin_folded_line_sub_index 0 lo
        simp [hf2, hf, hp]

/-- Witness for the amended C4 on a one-folded-line, one-visual-line
state. -/
theorem claim_c4_amended_witness :
    Lines.folded_line_of_origin_line_r
        ⟨[⟨0, 0, 0, [2], ⟨0, 0, 0, []⟩⟩], [⟨0, 0, 2, 0, 2, 0, 0, 0⟩]⟩ 5
      ≠ .panicked ∧
    Lines.visual_line_of_folded_line_and_sub_index
        ⟨[⟨0, 0, 0, [2], ⟨0, 0, 0, []⟩⟩], [⟨0, 0, 2, 0, 2, 0, 0, 0⟩]⟩ 3 4
      ≠ .panicked ∧
    Lines.last_visual_line
        ⟨[⟨0, 0, 0, [2], ⟨0, 0, 0, []⟩⟩], [⟨0, 0, 2, 0, 2, 0, 0, 0⟩]⟩
      ≠ .panicked ∧
    Lines.previous_visual_line
        ⟨[⟨0, 0, 0, [2], ⟨0, 0, 0, []⟩⟩], [⟨0, 0, 2, 0, 2, 0, 0, 0⟩]⟩ 0 0
      ≠ .panicked :=
  claim_c4_amended
    ⟨[⟨0, 0, 0, [2], ⟨0, 0, 0, []⟩⟩], [⟨0, 0, 2, 0, 2, 0, 0, 0⟩]⟩ 5 3 4 0 0
    (by decide) (by decide)

/-- Counterexample to C5 as stated: the semantic projection drops a span
that only partially overlaps the line.  The span `[0, 10)` overlaps the
line interval `[5, 15)` (its start is before the line end and the line
start is before its end), its key has a configured color, yet
`_get_line_semantic_styles` returns no style for it, because its filter
requires `line_start <= start && end < line_end`. -/
theorem claim_c5_counterexample :
    Styles.get_line_semantic_styles [⟨0, 10, 0⟩] (fun _ => some 1) 0 5 15
      = [] ∧ (0 : Nat) < 15 ∧ (5 : Nat) < 10 :=
  ⟨rfl, by omega, by omega⟩

/-- C5 (amended): the semantic projection returns one line-relative
style for every stored span fully contained in the line
(`line_start ≤ start` and `end < line_end`) whose key has a configured
color — partially overlapping spans are excluded; the diagnostic
projection does include spans that start inside the line and extend
past its end, and excludes diagnostics whose severity is at or above
HINT (a fixed cutoff) or has no configured color. -/
theorem claim_c5_amended (styles : List Styles.SpanE)
    (colorMap : Nat → Option Nat) (ol ls le : Nat) (sp : Styles.SpanE)
    (hsp : sp ∈ styles) (c : Nat) (diags : List Styles.DiagSpanE)
    (colorOfDiag : Nat → Option Nat) (so eo : Nat) (d : Styles.DiagSpanE)
    (hd : d ∈ diags) (sev : Nat) :
    (ls ≤ sp.start → sp.stop < le → colorMap sp.val = some c →
      (⟨ol, sp.start - ls, sp.stop - sp.start, sp.start, sp.stop, c,
        sp.start - ls, sp.stop - ls⟩ : Styles.NewLineStyleE)
        ∈ Styles.get_line_semantic_styles styles colorMap ol ls le) ∧
    (∀ st ∈ Styles.get_line_semantic_styles styles colorMap ol ls le,
      ls ≤ st.start_of_buffer ∧ st.end_of_buffer < le) ∧
    (d.severity = some sev → so ≤ d.start → d.start < eo →
      d.start < d.stop → sev < 4 → colorOfDiag sev = some c →
      (⟨ol, d.start - so, d.stop - d.start, so, eo, c, d.start - so,
        d.stop - so⟩ : Styles.NewLineStyleE)
        ∈ Styles.get_line_diagnostic_styles_2 true diags colorOfDiag
            ol so eo) ∧
    (∀ st ∈ Styles.get_line_diagnostic_styles_2 true diags colorOfDiag
        ol so eo,
      ∃ d2 ∈ diags, ∃ sev2, d2.severity = some sev2 ∧ sev2 < 4 ∧
        colorOfDiag sev2 = some st.fg_color) := by
  refine ⟨?_, ?_, ?_, ?_⟩
  · intro h1 h2 hc
    refine List.mem_filterMap.mpr ⟨sp, hsp, ?_⟩
    rw [if_pos ⟨h1, h2⟩, hc]
    rfl
  · intro st hst
    obtain ⟨sp2, _, heq⟩ := List.mem_filterMap.mp hst
    by_cases hcond : ls ≤ sp2.start ∧ sp2.stop < le
    · rw [if_pos hcond] at heq
      cases hcm : colorMap sp2.val with
      | none => rw [hcm] at heq; simp at heq
      | some c2 =>
        rw [hcm] at heq
        simp only [Option.map_some', Option.some.injEq] at heq
        subst heq
        exact hcond
    · rw [if_neg hcond] at heq
      simp at heq
  · intro hsev h1 h2 h3 h4 hc
    rw [Styles.get_line_diagnostic_styles_2, if_pos rfl]
    refine List.mem_filterMap.mpr ⟨d, ?_, ?_⟩
    · refine List.mem_filter.mpr ⟨hd, ?_⟩
      simp only [Bool.and_eq_true, decide_eq_true_eq]
      omega
    · simp only [hsev]
      rw [if_pos ⟨by omega, by omega, h4⟩, hc]
      rfl
  · intro st hst
    rw [Styles.get_line_diagnostic_styles_2, if_pos rfl] at hst
    obtain ⟨d2, hd2, heq⟩ := List.mem_filterMap.mp hst
    have hd2mem : d2 ∈ diags := (List.mem_filter.mp hd2).1
    cases hsev2 : d2.severity with
    | none => rw [hsev2] at heq; simp at heq
    | some sev2 =>
      simp only [hsev2] at heq
      by_cases hcond : d2.start ≤ eo ∧ so ≤ d2.stop ∧ sev2 < 4
      · rw [if_pos hcond] at heq
        cases hcd : colorOfDiag sev2 with
        | none => rw [hcd] at heq; simp at heq
        | some c2 =>
          rw [hcd] at heq
          simp only [Option.map_some', Option.some.injEq] at heq
          subst heq
          exact ⟨d2, hd2mem, sev2, hsev2, hcond.2.2, hcd⟩
      · rw [if_neg hcond] at heq
        simp at heq

/-- Witness for the amended C5: a contained semantic span on line
`[5, 15)` and a warning diagnostic starting inside the line and running
past its end. -/
theorem claim_c5_amended_witness :
    ((5 : Nat) ≤ 5 → 8 < 15 → (fun _ => some 2) 0 = some 2 →
      (⟨0, 5 - 5, 8 - 5, 5, 8, 2, 5 - 5, 8 - 5⟩ : Styles.NewLineStyleE)
        ∈ Styles.get_line_semantic_styles [⟨5, 8, 0⟩] (fun _ => some 2)
            0 5 15) ∧
    (∀ st ∈ Styles.get_line_semantic_styles [⟨5, 8, 0⟩] (fun _ => some 2)
        0 5 15, 5 ≤ st.start_of_buffer ∧ st.end_of_buffer < 15) ∧
    ((⟨10, 20, some 2⟩ : Styles.DiagSpanE).severity = some 2 →
      (5 : Nat) ≤ 10 → 10 < 15 → 10 < 20 → 2 < 4 →
      (fun _ => some 2) 2 = some 2 →
      (⟨0, 10 - 5, 20 - 10, 5, 15, 2, 10 - 5, 20 - 5⟩ :
          Styles.NewLineStyleE)
        ∈ Styles.get_line_diagnostic_styles_2 true [⟨10, 20, some 2⟩]
            (fun _ => some 2) 0 5 15) ∧
    (∀ st ∈ Styles.get_line_diagnostic_styles_2 true [⟨10, 20, some 2⟩]
        (fun _ => some 2) 0 5 15,
      ∃ d2 ∈ [(⟨10, 20, some 2⟩ : Styles.DiagSpanE)], ∃ sev2,
        d2.severity = some sev2 ∧ sev2 < 4 ∧
        (fun _ => some 2) sev2 = some st.fg_color) :=
  claim_c5_amended [⟨5, 8, 0⟩] (fun _ => some 2) 0 5 15 ⟨5, 8, 0⟩
    (List.mem_cons_self _ _) 2 [⟨10, 20, some 2⟩] (fun _ => some 2) 5 15
    ⟨10, 20, some 2⟩ (List.mem_cons_self _ _) 2

/-- C7: on the reference document whose first line holds 15 characters,
the click point (x = 163.1, y = 13.1) falls on visual line 0
(13.1 / 23 line height), the shaper hit past the last character yields
final column 15 outside the text, and `buffer_offset_of_click` maps it
through the (empty) phantom data and `offset_of_line_col` to buffer
offset 15 with `is_inside = false`. -/
theorem claim_c7_click_hit_test :
    Click.visual_line_of_y 131 230 = 0 ∧
    Click.buffer_offset_of_click (Click.hit_point_past_line 15)
        ⟨0, 0, 15, []⟩ Click.referenceOffsetOfLineCol = (15, false) :=
  ⟨rfl, rfl⟩

/-- Counterexample to C8 as stated: no single running-length shift
re-anchors the line-6 spans with `origin_line_offset_start` 4, 8, 12
onto starts 4, 7, 21 — `OriginLine::semantic_styles` adds the same
delta to every span of the line, which preserves the pairwise gaps
(4, 4), while 4, 7, 21 has gaps (3, 14). -/
theorem claim_c8_counterexample :
    ¬ ∃ d : Nat,
      (Styles.semantic_styles_shift d
        [⟨6, 4, 2, 120, 122, 1, 4, 6⟩, ⟨6, 8, 1, 124, 125, 2, 8, 9⟩,
          ⟨6, 12, 1, 128, 129, 3, 12, 13⟩]).map
            Styles.NewLineStyleE.origin_line_offset_start = [4, 7, 21] := by
  rintro ⟨d, h⟩
  simp [Styles.semantic_styles_shift] at h
  omega

/-- C8 (amended): `new_text_layout_2` shifts all semantic spans of one
merged origin line by the same running offset, so the line-6 spans with
starts 4, 8, 12 keep those starts (their folded line begins at line 6,
shift 0); the observed folded-line starts 4, 7, 21 are the re-anchored
spans of the origin lines merged into folded line 1 — two spans of the
first merged line unshifted at 4 and 7, and one span of a later merged
line shifted by the running length 14 of the phantom-shortened text
merged before it. -/
theorem claim_c8_amended (d : Nat) (sts : List Styles.NewLineStyleE) :
    ((Styles.semantic_styles_shift d sts).map
        Styles.NewLineStyleE.origin_line_offset_start
      = sts.map (fun x => x.origin_line_offset_start + d)) ∧
    ((Styles.merged_semantic_styles
        [⟨1, 4, 2, 21, 23, 1, 4, 6⟩, ⟨1, 7, 4, 24, 28, 2, 7, 11⟩]
        [(14, [⟨3, 7, 4, 60, 64, 3, 7, 11⟩])]).map
          Styles.NewLineStyleE.origin_line_offset_start = [4, 7, 21]) ∧
    ((Styles.semantic_styles_shift 0
        [⟨6, 4, 2, 120, 122, 1, 4, 6⟩, ⟨6, 8, 1, 124, 125, 2, 8, 9⟩,
          ⟨6, 12, 1, 128, 129, 3, 12, 13⟩]).map
            Styles.NewLineStyleE.origin_line_offset_start = [4, 8, 12]) := by
  refine ⟨?_, rfl, rfl⟩
  simp [Styles.semantic_styles_shift]

/-- Counterexample to C9 as stated: within the `EditBuffer` arm of one
`buffer_edit` call, the `screen_lines` signal is set twice — once by the
`trigger_signals` at the end of `apply_delta`, before the mutation ends,
and once by the final `trigger_signals` — rather than exactly once at
the end. -/
theorem claim_c9_counterexample :
    (Signal.runSigOps (⟨0, 0, false, 0⟩ : Signal.SignalManagerE Nat)
        (Signal.buffer_edit_screen_ops 1 2)).setCount = 2 ∧
    (Signal.runSigOps (⟨0, 0, false, 0⟩ : Signal.SignalManagerE Nat)
        ((Signal.buffer_edit_screen_ops 1 2).take 2)).setCount = 1 :=
  ⟨rfl, rfl⟩

/-- C9 (amended): per `trigger_signals` flush each signal is set at most
once — `trigger` sets the reactive signal iff the dirty flag is set and
clears it, an immediate second `trigger` sets nothing, internal updates
never touch the reactive signal, and `update_if_not_equal` with an
equal value changes nothing; but `buffer_edit`'s edit arms run
`apply_delta`, which itself ends with `trigger_signals`, so a signal
can be published more than once within one `buffer_edit` call. -/
theorem claim_c9_amended (m : Signal.SignalManagerE Nat) (nv : Nat) :
    (m.dirty = false → Signal.trigger m = m) ∧
    (m.dirty = true → Signal.trigger m
        = ⟨m.v, m.v, false, m.setCount + 1⟩) ∧
    Signal.update_if_not_equal m m.v = (m, false) ∧
    (Signal.update_force m nv).setCount = m.setCount ∧
    (Signal.update_force m nv).signalVal = m.signalVal ∧
    (Signal.trigger (Signal.trigger m)).setCount ≤ m.setCount + 1 := by
  refine ⟨?_, ?_, ?_, rfl, rfl, ?_⟩
  · intro h
    simp [Signal.trigger, h]
  · intro h
    simp [Signal.trigger, h]
  · simp [Signal.update_if_not_equal]
  · unfold Signal.trigger
    cases hd : m.dirty <;> simp [hd]

/-- Witness for the amended C9 on a dirty manager. -/
theorem claim_c9_amended_witness :
    ((⟨5, 0, true, 0⟩ : Signal.SignalManagerE Nat).dirty = false →
      Signal.trigger ⟨5, 0, true, 0⟩ = ⟨5, 0, true, 0⟩) ∧
    ((⟨5, 0, true, 0⟩ : Signal.SignalManagerE Nat).dirty = true →
      Signal.trigger ⟨5, 0, true, 0⟩ = ⟨5, 5, false, 0 + 1⟩) ∧
    Signal.update_if_not_equal (⟨5, 0, true, 0⟩ : Signal.SignalManagerE Nat)
        (⟨5, 0, true, 0⟩ : Signal.SignalManagerE Nat).v
      = (⟨5, 0, true, 0⟩, false) ∧
    (Signal.update_force (⟨5, 0, true, 0⟩ : Signal.SignalManagerE Nat)
        7).setCount = 0 ∧
    (Signal.update_force (⟨5, 0, true, 0⟩ : Signal.SignalManagerE Nat)
        7).signalVal = 0 ∧
    (Signal.trigger (Signal.trigger
        (⟨5, 0, true, 0⟩ : Signal.SignalManagerE Nat))).setCount ≤ 0 + 1 :=
  claim_c9_amended ⟨5, 0, true, 0⟩ 7

/-- C10: every revision-guarded update is a no-op returning `Ok(false)`
when called with a revision different from the buffer's current one:
`set_syntax_with_rev`, `update_semantic_styles_from_lsp` and
`buffer_edit(SetPristine(rev))` all leave the state untouched. -/
theorem claim_c10_rev_guards (s : RevGuard.DocStateE)
    (newStyles : Option (List Styles.SpanE)) (styles : List Styles.SpanE)
    (rev : Nat) (h : rev ≠ s.rev) :
    RevGuard.set_syntax_with_rev s newStyles rev = (false, s) ∧
    RevGuard.update_semantic_styles_from_lsp s styles rev = (false, s) ∧
    RevGuard.buffer_edit_set_pristine s rev = (false, s) := by
  have h' : s.rev ≠ rev := Ne.symm h
  refine ⟨?_, ?_, ?_⟩
  · simp [RevGuard.set_syntax_with_rev, h']
  · simp [RevGuard.update_semantic_styles_from_lsp, h']
  · simp [RevGuard.buffer_edit_set_pristine, h]

/-- Witness for C10: a stale revision (4 against current revision 3). -/
theorem claim_c10_rev_guards_witness :
    RevGuard.set_syntax_with_rev
        ⟨3, false, ⟨false, false, false, 0⟩, none, false, none, 0⟩
        (some []) 4
      = (false, ⟨3, false, ⟨false, false, false, 0⟩, none, false, none, 0⟩) ∧
    RevGuard.update_semantic_styles_from_lsp
        ⟨3, false, ⟨false, false, false, 0⟩, none, false, none, 0⟩ [] 4
      = (false, ⟨3, false, ⟨false, false, false, 0⟩, none, false, none, 0⟩) ∧
    RevGuard.buffer_edit_set_pristine
        ⟨3, false, ⟨false, false, false, 0⟩, none, false, none, 0⟩ 4
      = (false, ⟨3, false, ⟨false, false, false, 0⟩, none, false, none, 0⟩) :=
  claim_c10_rev_guards
    ⟨3, false, ⟨false, false, false, 0⟩, none, false, none, 0⟩
    (some []) [] 4 (by decide)

namespace Lines

theorem chainEnd_le_of_stop (f : Nat → Bool) (b' : Nat)
    (hstop : f b' = false) :
    ∀ t lim, t ≤ b' → chainEnd f t lim ≤ b' := by
  intro t lim
  induction t, lim using Lines.chainEnd.induct f with
  | case1 t lim h ih =>
    intro ht
    rw [chainEnd, dif_pos h]
    apply ih
    rcases Nat.lt_or_ge t b' with h1 | h1
    · omega
    · have heq : t = b' := by omega
      rw [heq, hstop] at h
      exact absurd h.2 (by simp)
  | case2 t lim h =>
    intro ht
    rw [chainEnd, dif_neg h]
    exact ht

theorem chainEnd_congr_f (f g : Nat → Bool) :
    ∀ t lim, (∀ i, t ≤ i → f i = g i) →
      chainEnd f t lim = chainEnd g t lim := by
  intro t lim
  induction t, lim using Lines.chainEnd.induct f with
  | case1 t lim h ih =>
    intro hagree
    have hg : t < lim ∧ g t = true :=
      ⟨h.1, by rw [← hagree t (le_refl t)]; exact h.2⟩
    rw [chainEnd, dif_pos h, ih (fun i hi => hagree i (by omega))]
    conv_rhs => rw [chainEnd, dif_pos hg]
  | case2 t lim h =>
    intro hagree
    have hg : ¬(t < lim ∧ g t = true) := by
      intro hc
      exact h ⟨hc.1, by rw [hagree t (le_refl t)]; exact hc.2⟩
    rw [chainEnd, dif_neg h, chainEnd, dif_neg hg]

theorem chainEnd_stop_limit (f : Nat → Bool) (b' : Nat)
    (hstop : f b' = false) :
    ∀ d t lim1 lim2, b' - t = d → t ≤ b' → b' ≤ lim1 → b' ≤ lim2 →
      chainEnd f t lim1 = chainEnd f t lim2 := by
  intro d
  induction d with
  | zero =>
    intro t lim1 lim2 hd ht h1 h2
    have heq : t = b' := by omega
    subst heq
    have hn1 : ¬(t < lim1 ∧ f t = true) := by
      intro hh
      rw [hstop] at hh
      exact absurd hh.2 (by simp)
    have hn2 : ¬(t < lim2 ∧ f t = true) := by
      intro hh
      rw [hstop] at hh
      exact absurd hh.2 (by simp)
    rw [chainEnd, dif_neg hn1, chainEnd, dif_neg hn2]
  | succ d ih =>
    intro t lim1 lim2 hd ht h1 h2
    by_cases hf : f t = true
    · have hc1 : t < lim1 ∧ f t = true := ⟨by omega, hf⟩
      have hc2 : t < lim2 ∧ f t = true := ⟨by omega, hf⟩
      conv_lhs => rw [chainEnd, dif_pos hc1]
      conv_rhs => rw [chainEnd, dif_pos hc2]
      exact ih (t + 1) lim1 lim2 (by omega) (by omega) h1 h2
    · have hn1 : ¬(t < lim1 ∧ f t = true) := fun hh => hf hh.2
      have hn2 : ¬(t < lim2 ∧ f t = true) := fun hh => hf hh.2
      rw [chainEnd, dif_neg hn1, chainEnd, dif_neg hn2]

theorem chainEnd_pair (f g : Nat → Bool) (a c : Nat)
    (h : ∀ j, f (a + j) = g (c + j)) :
    ∀ d t lim, lim - t = d →
      ∃ r, t ≤ r ∧ chainEnd f (a + t) (a + lim) = a + r ∧
        chainEnd g (c + t) (c + lim) = c + r := by
  intro d
  induction d with
  | zero =>
    intro t lim hd
    refine ⟨t, le_refl t, ?_, ?_⟩
    · rw [chainEnd, dif_neg (fun hh => absurd hh.1 (by omega))]
    · rw [chainEnd, dif_neg (fun hh => absurd hh.1 (by omega))]
  | succ d ih =>
    intro t lim hd
    by_cases hf : f (a + t) = true
    · have hc1 : a + t < a + lim ∧ f (a + t) = true := ⟨by omega, hf⟩
      have hc2 : c + t < c + lim ∧ g (c + t) = true :=
        ⟨by omega, by rw [← h t]; exact hf⟩
      obtain ⟨r, hr1, hr2, hr3⟩ := ih (t + 1) lim (by omega)
      refine ⟨r, by omega, ?_, ?_⟩
      · rw [chainEnd, dif_pos hc1,
          show a + t + 1 = a + (t + 1) from by omega]
        exact hr2
      · rw [chainEnd, dif_pos hc2,
          show c + t + 1 = c + (t + 1) from by omega]
        exact hr3
    · have hn1 : ¬(a + t < a + lim ∧ f (a + t) = true) := fun hh => hf hh.2
      have hn2 : ¬(c + t < c + lim ∧ g (c + t) = true) := fun hh =>
        hf (by rw [h t]; exact hh.2)
      exact ⟨t, le_refl t, by rw [chainEnd, dif_neg hn1],
        by rw [chainEnd, dif_neg hn2]⟩

theorem buildIntervals_switch_limit (f : Nat → Bool) (b' : Nat)
    (hstop : f b' = false) :
    ∀ fuel t lim1 lim2, t + fuel = b' + 1 → b' ≤ lim1 → b' ≤ lim2 →
      buildIntervals f lim1 t fuel = buildIntervals f lim2 t fuel := by
  intro fuel
  induction fuel using Nat.strong_induction_on with
  | _ fuel ihs =>
    intro t lim1 lim2 hsum h1 h2
    match fuel, hsum with
    | 0, _ => rw [buildIntervals_zero, buildIntervals_zero]
    | fu + 1, hsum =>
      have ht : t ≤ b' := by omega
      have he12 : chainEnd f t lim1 = chainEnd f t lim2 :=
        chainEnd_stop_limit f b' hstop (b' - t) t lim1 lim2 rfl ht h1 h2
      have hle : chainEnd f t lim1 ≤ b' :=
        chainEnd_le_of_stop f b' hstop t lim1 ht
      have hge : t ≤ chainEnd f t lim1 := chainEnd_ge f t lim1
      rw [buildIntervals_succ, buildIntervals_succ, ← he12]
      congr 1
      exact ihs (fu - (chainEnd f t lim1 - t)) (by omega)
        (chainEnd f t lim1 + 1) lim1 lim2 (by omega) h1 h2

theorem buildIntervals_split (f : Nat → Bool) (lim b' : Nat)
    (hstop : f b' = false) :
    ∀ fuel1 fuel2 t, t + fuel1 = b' + 1 →
      buildIntervals f lim t (fuel1 + fuel2)
        = buildIntervals f lim t fuel1
          ++ buildIntervals f lim (b' + 1) fuel2 := by
  intro fuel1
  induction fuel1 using Nat.strong_induction_on with
  | _ fuel1 ihs =>
    intro fuel2 t hsum
    match fuel1, hsum with
    | 0, hsum =>
      rw [buildIntervals_zero]
      simp only [Nat.zero_add, List.nil_append]
      rw [show t = b' + 1 from by omega]
    | fu + 1, hsum =>
      have ht : t ≤ b' := by omega
      have hle : chainEnd f t lim ≤ b' :=
        chainEnd_le_of_stop f b' hstop t lim ht
      have hge : t ≤ chainEnd f t lim := chainEnd_ge f t lim
      rw [show fu + 1 + fuel2 = (fu + fuel2) + 1 from by omega,
        buildIntervals_succ, buildIntervals_succ, List.cons_append]
      congr 1
      rw [show (fu + fuel2) - (chainEnd f t lim - t)
          = (fu - (chainEnd f t lim - t)) + fuel2 from by omega]
      exact ihs (fu - (chainEnd f t lim - t)) (by omega) fuel2
        (chainEnd f t lim + 1) (by omega)

theorem buildIntervals_congr_f (f g : Nat → Bool) (lim : Nat) :
    ∀ fuel t, (∀ i, t ≤ i → f i = g i) →
      buildIntervals f lim t fuel = buildIntervals g lim t fuel := by
  intro fuel
  induction fuel using Nat.strong_induction_on with
  | _ fuel ihs =>
    intro t hagree
    match fuel with
    | 0 => rw [buildIntervals_zero, buildIntervals_zero]
    | fu + 1 =>
      have he : chainEnd f t lim = chainEnd g t lim :=
        chainEnd_congr_f f g t lim hagree
      have hge : t ≤ chainEnd f t lim := chainEnd_ge f t lim
      rw [buildIntervals_succ, buildIntervals_succ, ← he]
      congr 1
      exact ihs (fu - (chainEnd f t lim - t)) (by omega)
        (chainEnd f t lim + 1) (fun i hi => hagree i (by omega))

theorem buildIntervals_bounds_start (f : Nat → Bool) (lim : Nat) :
    ∀ fuel t iv, iv ∈ buildIntervals f lim t fuel →
      t ≤ iv.1 ∧ iv.1 ≤ iv.2 := by
  intro fuel
  induction fuel using Nat.strong_induction_on with
  | _ fuel ihs =>
    intro t iv hiv
    match fuel, hiv with
    | 0, hiv =>
      rw [buildIntervals_zero] at hiv
      exact absurd hiv (List.not_mem_nil _)
    | fu + 1, hiv =>
      rw [buildIntervals_succ] at hiv
      rcases List.mem_cons.mp hiv with h | h
      · subst h
        exact ⟨le_refl _, chainEnd_ge f t lim⟩
      · have hge : t ≤ chainEnd f t lim := chainEnd_ge f t lim
        obtain ⟨h1, h2⟩ :=
          ihs (fu - (chainEnd f t lim - t)) (by omega)
            (chainEnd f t lim + 1) iv h
        exact ⟨by omega, h2⟩

theorem buildIntervals_pair (f g : Nat → Bool) (a c : Nat)
    (h : ∀ j, f (a + j) = g (c + j)) :
    ∀ fuel t lim,
      buildIntervals g (c + lim) (c + t) fuel
        = (buildIntervals f (a + lim) (a + t) fuel).map
            (fun iv => (iv.1 - a + c, iv.2 - a + c)) := by
  intro fuel
  induction fuel using Nat.strong_induction_on with
  | _ fuel ihs =>
    intro t lim
    match fuel with
    | 0 => rw [buildIntervals_zero, buildIntervals_zero]; rfl
    | fu + 1 =>
      obtain ⟨r, hr1, hr2, hr3⟩ := chainEnd_pair f g a c h (lim - t) t lim rfl
      rw [buildIntervals_succ, buildIntervals_succ, hr2, hr3, List.map_cons]
      rw [show a + t - a + c = c + t from by omega,
        show a + r - a + c = c + r from by omega]
      congr 1
      rw [show c + r - (c + t) = r - t from by omega,
        show a + r - (a + t) = r - t from by omega,
        show c + r + 1 = c + (r + 1) from by omega,
        show a + r + 1 = a + (r + 1) from by omega]
      exact ihs (fu - (r - t)) (by omega) (r + 1) lim

theorem chainEnd_le_max (f : Nat → Bool) (t lim : Nat) :
    chainEnd f t lim ≤ max t lim := by
  rcases Nat.le_total t lim with h | h
  · exact le_trans (chainEnd_le f t lim h) (le_max_right t lim)
  · rw [chainEnd, dif_neg (fun hh => absurd hh.1 (by omega))]
    exact le_max_left t lim

theorem buildIntervals_mem_lt (f : Nat → Bool) (lim : Nat) :
    ∀ fuel t iv, iv ∈ buildIntervals f lim t fuel →
      iv.1 < t + fuel ∧ iv.2 ≤ max (t + fuel - 1) lim := by
  intro fuel
  induction fuel using Nat.strong_induction_on with
  | _ fuel ihs =>
    intro t iv hiv
    match fuel, hiv with
    | 0, hiv =>
      rw [buildIntervals_zero] at hiv
      exact absurd hiv (List.not_mem_nil _)
    | fu + 1, hiv =>
      have hge : t ≤ chainEnd f t lim := chainEnd_ge f t lim
      rw [buildIntervals_succ] at hiv
      rcases List.mem_cons.mp hiv with h | h
      · subst h
        refine ⟨by omega, ?_⟩
        refine le_trans (chainEnd_le_max f t lim) (max_le_max (by omega)
          (le_refl lim))
      · rcases Nat.lt_or_ge fu (chainEnd f t lim - t) with hlt | hle
        · rw [show fu - (chainEnd f t lim - t) = 0 from by omega,
            buildIntervals_zero] at h
          exact absurd h (List.not_mem_nil _)
        · obtain ⟨h1, h2⟩ := ihs (fu - (chainEnd f t lim - t)) (by omega)
            (chainEnd f t lim + 1) iv h
          refine ⟨by omega, ?_⟩
          rw [show chainEnd f t lim + 1 + (fu - (chainEnd f t lim - t)) - 1
              = t + fu from by omega] at h2
          exact le_trans h2 (max_le_max (by omega) (le_refl lim))

theorem chainEnd_congr_f_lt (f g : Nat → Bool) :
    ∀ t lim, (∀ i, i < lim → f i = g i) →
      chainEnd f t lim = chainEnd g t lim := by
  intro t lim
  induction t, lim using Lines.chainEnd.induct f with
  | case1 t lim h ih =>
    intro hagree
    have hg : t < lim ∧ g t = true :=
      ⟨h.1, by rw [← hagree t h.1]; exact h.2⟩
    rw [chainEnd, dif_pos h, ih hagree]
    conv_rhs => rw [chainEnd, dif_pos hg]
  | case2 t lim h =>
    intro hagree
    have hg : ¬(t < lim ∧ g t = true) := by
      intro hc
      exact h ⟨hc.1, by rw [hagree t hc.1]; exact hc.2⟩
    rw [chainEnd, dif_neg h, chainEnd, dif_neg hg]

theorem buildIntervals_congr_f_lt (f g : Nat → Bool) (lim : Nat)
    (hagree : ∀ i, i < lim → f i = g i) :
    ∀ fuel t, buildIntervals f lim t fuel = buildIntervals g lim t fuel := by
  intro fuel
  induction fuel using Nat.strong_induction_on with
  | _ fuel ihs =>
    intro t
    match fuel with
    | 0 => rw [buildIntervals_zero, buildIntervals_zero]
    | fu + 1 =>
      have he : chainEnd f t lim = chainEnd g t lim :=
        chainEnd_congr_f_lt f g t lim hagree
      have hge : t ≤ chainEnd f t lim := chainEnd_ge f t lim
      rw [buildIntervals_succ, buildIntervals_succ, ← he]
      congr 1
      exact ihs (fu - (chainEnd f t lim - t)) (by omega)
        (chainEnd f t lim + 1)

theorem buildIntervals_split_at (f : Nat → Bool) (lim t fuel1 fuel2 : Nat)
    (hstop : t + fuel1 = 0 ∨ f (t + fuel1 - 1) = false) :
    buildIntervals f lim t (fuel1 + fuel2)
      = buildIntervals f lim t fuel1
        ++ buildIntervals f lim (t + fuel1) fuel2 := by
  match fuel1 with
  | 0 =>
    rw [buildIntervals_zero]
    simp only [Nat.zero_add, Nat.add_zero, List.nil_append]
  | m + 1 =>
    have hstop' : f (t + m) = false := by
      rcases hstop with h | h
      · omega
      · rw [show t + (m + 1) - 1 = t + m from by omega] at h
        exact h
    have := buildIntervals_split f lim (t + m) hstop' (m + 1) fuel2 t
      (by omega)
    rw [show t + m + 1 = t + (m + 1) from by omega] at this
    exact this

theorem buildIntervals_switch_at (f : Nat → Bool) (t fuel lim1 lim2 : Nat)
    (hstop : t + fuel = 0 ∨ f (t + fuel - 1) = false)
    (h1 : t + fuel - 1 ≤ lim1) (h2 : t + fuel - 1 ≤ lim2) :
    buildIntervals f lim1 t fuel = buildIntervals f lim2 t fuel := by
  match fuel with
  | 0 => rw [buildIntervals_zero, buildIntervals_zero]
  | m + 1 =>
    have hstop' : f (t + m) = false := by
      rcases hstop with h | h
      · omega
      · rw [show t + (m + 1) - 1 = t + m from by omega] at h
        exact h
    have hm : t + (m + 1) - 1 = t + m := by omega
    rw [hm] at h1 h2
    exact buildIntervals_switch_limit f (t + m) hstop' (m + 1) t lim1 lim2
      (by omega) h1 h2

end Lines

namespace Rebuild

theorem sumLen_cons (l : String) (rest : List String) :
    sumLen (l :: rest) = l.length + sumLen rest := by
  simp [sumLen]

theorem sumLen_append (a b : List String) :
    sumLen (a ++ b) = sumLen a + sumLen b := by
  simp [sumLen]

theorem buildLines_length (insOf : String → List Phantom.Ins)
    (styOf : String → List (Nat × Nat × Nat)) (ls : List String) :
    ∀ idx off, (buildLines insOf styOf ls idx off).length = ls.length := by
  induction ls with
  | nil => intro idx off; rfl
  | cons l rest ih =>
    intro idx off
    simp [buildLines, ih]

theorem buildLines_append (insOf : String → List Phantom.Ins)
    (styOf : String → List (Nat × Nat × Nat)) (a b : List String) :
    ∀ idx off, buildLines insOf styOf (a ++ b) idx off
      = buildLines insOf styOf a idx off
        ++ buildLines insOf styOf b (idx + a.length) (off + sumLen a) := by
  induction a with
  | nil =>
    intro idx off
    simp [buildLines, sumLen]
  | cons l rest ih =>
    intro idx off
    simp only [List.cons_append, buildLines, List.cons.injEq, true_and,
      List.append_eq]
    rw [ih (idx + 1) (off + l.length)]
    congr 2
    · simp only [List.length_cons]
      omega
    · rw [sumLen_cons]
      omega

theorem OffsetM_adjust_add (o : OffsetM) (v k : Nat)
    (h : ∀ m, o = .minus m → m ≤ v) : o.adjust v + k = o.adjust (v + k) := by
  cases o with
  | add n => simp [OffsetM.adjust]; omega
  | minus m =>
    have := h m rfl
    simp [OffsetM.adjust]
    omega

theorem lineStylesOf_shift (styOf : String → List (Nat × Nat × Nat))
    (c : String) (idx off : Nat) (o lo : OffsetM)
    (ho : ∀ m, o = .minus m → m ≤ off) :
    lineStylesOf styOf c (lo.adjust idx) (o.adjust off)
      = (lineStylesOf styOf c idx off).map (styleAdjust o lo) := by
  unfold lineStylesOf
  rw [List.map_map]
  apply List.map_congr_left
  intro r _
  simp only [Function.comp_apply, styleAdjust]
  rw [OffsetM_adjust_add o off r.1 ho, OffsetM_adjust_add o off r.2.1 ho]

theorem shift_map_styleAdjust (delta : Nat) (o lo : OffsetM)
    (xs : List Styles.NewLineStyleE) :
    Styles.semantic_styles_shift delta (xs.map (styleAdjust o lo))
      = (Styles.semantic_styles_shift delta xs).map (styleAdjust o lo) := by
  simp only [Styles.semantic_styles_shift, List.map_map]
  rfl

theorem buildLines_shift (insOf : String → List Phantom.Ins)
    (styOf : String → List (Nat × Nat × Nat)) (ls : List String) :
    ∀ idx off (o lo : OffsetM),
      (∀ m, o = .minus m → m ≤ off) → (∀ m, lo = .minus m → m ≤ idx) →
      buildLines insOf styOf ls (lo.adjust idx) (o.adjust off)
        = (buildLines insOf styOf ls idx off).map
            (fun x => x.adjust o lo) := by
  induction ls with
  | nil => intro idx off o lo _ _; rfl
  | cons l rest ih =>
    intro idx off o lo ho hlo
    simp only [buildLines, List.map_cons, mkOriginLine, OriginLineM.adjust,
      List.cons.injEq]
    refine ⟨?_, ?_⟩
    · rw [lineStylesOf_shift styOf l idx off o lo ho]
    · rw [OffsetM_adjust_add lo idx 1 hlo,
        OffsetM_adjust_add o off l.length ho]
      exact ih (idx + 1) (off + l.length) o lo
        (fun m hm => le_trans (ho m hm) (by omega))
        (fun m hm => le_trans (hlo m hm) (by omega))

theorem mergedStyles_shift (styOf : String → List (Nat × Nat × Nat))
    (cs : List String) :
    ∀ idx off delta (o lo : OffsetM),
      (∀ m, o = .minus m → m ≤ off) → (∀ m, lo = .minus m → m ≤ idx) →
      mergedStyles styOf cs (lo.adjust idx) (o.adjust off) delta
        = (mergedStyles styOf cs idx off delta).map (styleAdjust o lo) := by
  induction cs with
  | nil => intro idx off delta o lo _ _; rfl
  | cons c rest ih =>
    intro idx off delta o lo ho hlo
    simp only [mergedStyles, List.map_append]
    congr 1
    · rw [lineStylesOf_shift styOf c idx off o lo ho,
        shift_map_styleAdjust]
    · rw [OffsetM_adjust_add lo idx 1 hlo,
        OffsetM_adjust_add o off c.length ho]
      exact ih (idx + 1) (off + c.length) (delta + c.length) o lo
        (fun m hm => le_trans (ho m hm) (by omega))
        (fun m hm => le_trans (hlo m hm) (by omega))

theorem offsetDelta_adjust (oldWin newWin : List String) (base : Nat)
    (h : sumLen oldWin ≤ base) :
    (offsetDeltaOf oldWin newWin).adjust base
      = base - sumLen oldWin + sumLen newWin := by
  unfold offsetDeltaOf
  split <;> simp [OffsetM.adjust] <;> omega

theorem lineDelta_adjust (oldWin newWin : List String) (base : Nat)
    (h : oldWin.length ≤ base) :
    (lineDeltaOf oldWin newWin).adjust base
      = base - oldWin.length + newWin.length := by
  unfold lineDeltaOf
  split <;> simp [OffsetM.adjust] <;> omega

theorem offsetDelta_minus_le (oldWin newWin : List String) (base : Nat)
    (h : sumLen oldWin ≤ base) :
    ∀ m, offsetDeltaOf oldWin newWin = .minus m → m ≤ base := by
  intro m hm
  unfold offsetDeltaOf at hm
  split at hm
  · simp at hm
  · simp only [OffsetM.minus.injEq] at hm
    omega

theorem lineDelta_minus_le (oldWin newWin : List String) (base : Nat)
    (h : oldWin.length ≤ base) :
    ∀ m, lineDeltaOf oldWin newWin = .minus m → m ≤ base := by
  intro m hm
  unfold lineDeltaOf at hm
  split at hm
  · simp at hm
  · simp only [OffsetM.minus.injEq] at hm
    omega

end Rebuild

namespace Rebuild

theorem take_mono_of_take_eq (l1 l2 : List String) (s j : Nat)
    (h : l1.take s = l2.take s) (hj : j ≤ s) : l1.take j = l2.take j := by
  have h1 : (l1.take s).take j = (l2.take s).take j := by rw [h]
  rwa [List.take_take, List.take_take, Nat.min_eq_left hj] at h1

theorem slice_of_take_eq (l1 l2 : List String) (s a k : Nat)
    (h : l1.take s = l2.take s) (hk : a + k ≤ s) :
    (l1.drop a).take k = (l2.drop a).take k := by
  have h1 : l1.take (a + k) = l2.take (a + k) :=
    take_mono_of_take_eq l1 l2 s (a + k) h hk
  calc (l1.drop a).take k
      = (l1.take (a + k)).drop a := by
        rw [List.drop_take, show a + k - a = k from by omega]
    _ = (l2.take (a + k)).drop a := by rw [h1]
    _ = (l2.drop a).take k := by
        rw [List.drop_take, show a + k - a = k from by omega]

theorem getD_of_take_eq (l1 l2 : List String) (s i : Nat)
    (h : l1.take s = l2.take s) (hi : i < s) :
    l1.getD i "" = l2.getD i "" := by
  show (l1.get? i).getD "" = (l2.get? i).getD ""
  rw [← List.get?_take hi (l := l1), ← List.get?_take hi (l := l2), h]

theorem getD_drop (l : List String) (m j : Nat) :
    l.getD (m + j) "" = (l.drop m).getD j "" := by
  show (l.get? (m + j)).getD "" = ((l.drop m).get? j).getD ""
  rw [List.get?_drop]

theorem mkFoldedList_length (styOf : String → List (Nat × Nat × Nat))
    (layoutOf : String → List Nat) (lines : List String) :
    ∀ ivs i, (mkFoldedList styOf layoutOf lines ivs i).length
      = ivs.length := by
  intro ivs
  induction ivs with
  | nil => intro i; rfl
  | cons iv rest ih =>
    intro i
    simp [mkFoldedList, ih]

theorem mkFoldedList_append (styOf : String → List (Nat × Nat × Nat))
    (layoutOf : String → List Nat) (lines : List String) :
    ∀ ivs1 ivs2 i,
      mkFoldedList styOf layoutOf lines (ivs1 ++ ivs2) i
        = mkFoldedList styOf layoutOf lines ivs1 i
          ++ mkFoldedList styOf layoutOf lines ivs2 (i + ivs1.length) := by
  intro ivs1
  induction ivs1 with
  | nil =>
    intro ivs2 i
    simp [mkFoldedList]
  | cons iv rest ih =>
    intro ivs2 i
    simp only [List.cons_append, mkFoldedList, List.cons.injEq, true_and,
      List.append_eq]
    rw [ih ivs2 (i + 1)]
    congr 2
    simp only [List.length_cons]
    omega

theorem mkFoldedList_mem_bounds (styOf : String → List (Nat × Nat × Nat))
    (layoutOf : String → List Nat) (lines : List String) :
    ∀ ivs i x, x ∈ mkFoldedList styOf layoutOf lines ivs i →
      ∃ iv ∈ ivs, x.origin_line_start = iv.1 ∧ x.origin_line_end = iv.2 := by
  intro ivs
  induction ivs with
  | nil =>
    intro i x hx
    exact absurd hx (List.not_mem_nil _)
  | cons iv rest ih =>
    intro i x hx
    rcases List.mem_cons.mp hx with h | h
    · subst h
      exact ⟨iv, List.mem_cons_self _ _, rfl, rfl⟩
    · obtain ⟨iv2, hmem, h1, h2⟩ := ih (i + 1) x h
      exact ⟨iv2, List.mem_cons_of_mem _ hmem, h1, h2⟩

theorem mkFolded_congr_buffer (styOf : String → List (Nat × Nat × Nat))
    (layoutOf : String → List Nat) (l1 l2 : List String) (s : Nat)
    (h : l1.take s = l2.take s) (iv : Nat × Nat) (i : Nat)
    (h1 : iv.1 ≤ iv.2) (h2 : iv.2 < s) :
    mkFolded styOf layoutOf l1 iv i = mkFolded styOf layoutOf l2 iv i := by
  have hoff1 : offsetOfLine l1 iv.1 = offsetOfLine l2 iv.1 := by
    unfold offsetOfLine
    rw [take_mono_of_take_eq l1 l2 s iv.1 h (by omega)]
  have hoff2 : offsetOfLine l1 (iv.2 + 1) = offsetOfLine l2 (iv.2 + 1) := by
    unfold offsetOfLine
    rw [take_mono_of_take_eq l1 l2 s (iv.2 + 1) h (by omega)]
  have hsl : (l1.drop iv.1).take (iv.2 + 1 - iv.1)
      = (l2.drop iv.1).take (iv.2 + 1 - iv.1) :=
    slice_of_take_eq l1 l2 s iv.1 (iv.2 + 1 - iv.1) h (by omega)
  unfold mkFolded mergedText
  rw [hoff1, hoff2, hsl]

theorem mkFoldedList_congr_buffer (styOf : String → List (Nat × Nat × Nat))
    (layoutOf : String → List Nat) (l1 l2 : List String) (s : Nat)
    (h : l1.take s = l2.take s) :
    ∀ ivs i, (∀ iv ∈ ivs, iv.1 ≤ iv.2 ∧ iv.2 < s) →
      mkFoldedList styOf layoutOf l1 ivs i
        = mkFoldedList styOf layoutOf l2 ivs i := by
  intro ivs
  induction ivs with
  | nil => intro i _; rfl
  | cons iv rest ih =>
    intro i hb
    have hivb := hb iv (List.mem_cons_self _ _)
    simp only [mkFoldedList, List.cons.injEq]
    exact ⟨mkFolded_congr_buffer styOf layoutOf l1 l2 s h iv i hivb.1 hivb.2,
      ih (i + 1) (fun x hx => hb x (List.mem_cons_of_mem _ hx))⟩

end Rebuild

namespace Rebuild

theorem take_length_s (oldLines : List String) (s : Nat)
    (hs : s ≤ oldLines.length) : (oldLines.take s).length = s := by
  rw [List.length_take]
  omega

theorem win_length (oldLines : List String) (s kOld : Nat)
    (hs : s + kOld ≤ oldLines.length) :
    ((oldLines.drop s).take kOld).length = kOld := by
  rw [List.length_take, List.length_drop]
  omega

theorem newBuf_take_s (oldLines newLines : List String) (s kOld : Nat)
    (hs : s + kOld ≤ oldLines.length) :
    (newBufOf oldLines newLines s kOld).take s = oldLines.take s := by
  unfold newBufOf
  rw [List.append_assoc]
  exact List.take_left' (take_length_s oldLines s (by omega))

theorem newBuf_take_d2 (oldLines newLines : List String) (s kOld : Nat)
    (hs : s + kOld ≤ oldLines.length) :
    (newBufOf oldLines newLines s kOld).take (s + newLines.length)
      = oldLines.take s ++ newLines := by
  unfold newBufOf
  refine List.take_left' ?_
  rw [List.length_append, take_length_s oldLines s (by omega)]

theorem newBuf_drop_d2 (oldLines newLines : List String) (s kOld : Nat)
    (hs : s + kOld ≤ oldLines.length) :
    (newBufOf oldLines newLines s kOld).drop (s + newLines.length)
      = oldLines.drop (s + kOld) := by
  unfold newBufOf
  have hlen : (oldLines.take s ++ newLines).length = s + newLines.length := by
    rw [List.length_append, take_length_s oldLines s (by omega)]
  calc ((oldLines.take s ++ newLines) ++ oldLines.drop (s + kOld)).drop
        (s + newLines.length)
      = ((oldLines.take s ++ newLines) ++ oldLines.drop (s + kOld)).drop
          ((oldLines.take s ++ newLines).length + 0) := by
        rw [hlen, Nat.add_zero]
    _ = (oldLines.drop (s + kOld)).drop 0 := List.drop_append 0
    _ = oldLines.drop (s + kOld) := List.drop_zero _

theorem newBuf_length (oldLines newLines : List String) (s kOld : Nat)
    (hs : s + kOld ≤ oldLines.length) :
    (newBufOf oldLines newLines s kOld).length
      = s + newLines.length + (oldLines.length - (s + kOld)) := by
  unfold newBufOf
  rw [List.length_append, List.length_append, take_length_s oldLines s
    (by omega), List.length_drop]

theorem newBuf_drop_shift (oldLines newLines : List String) (s kOld : Nat)
    (hs : s + kOld ≤ oldLines.length) (j : Nat) :
    (newBufOf oldLines newLines s kOld).drop (s + newLines.length + j)
      = oldLines.drop (s + kOld + j) := by
  calc (newBufOf oldLines newLines s kOld).drop (s + newLines.length + j)
      = (newBufOf oldLines newLines s kOld).drop (j + (s + newLines.length))
        := by congr 1; omega
    _ = ((newBufOf oldLines newLines s kOld).drop
          (s + newLines.length)).drop j := by
        rw [List.drop_drop]
        congr 1
        omega
    _ = (oldLines.drop (s + kOld)).drop j := by
          rw [newBuf_drop_d2 oldLines newLines s kOld hs]
    _ = oldLines.drop (j + (s + kOld)) := by
        rw [List.drop_drop]
        congr 1
        omega
    _ = oldLines.drop (s + kOld + j) := by congr 1; omega

theorem swallow_suffix_agree (sw : String → Bool)
    (oldLines newLines : List String) (s kOld : Nat)
    (hs : s + kOld ≤ oldLines.length) (j : Nat) :
    swallowAt sw oldLines (s + kOld + j)
      = swallowAt sw (newBufOf oldLines newLines s kOld)
          (s + newLines.length + j) := by
  unfold swallowAt
  rw [getD_drop oldLines (s + kOld) j,
    getD_drop (newBufOf oldLines newLines s kOld) (s + newLines.length) j,
    newBuf_drop_d2 oldLines newLines s kOld hs]

theorem offset_suffix (oldLines newLines : List String) (s kOld : Nat)
    (hs : s + kOld ≤ oldLines.length) (j : Nat) :
    offsetOfLine (newBufOf oldLines newLines s kOld)
        (s + newLines.length + j)
        + sumLen ((oldLines.drop s).take kOld)
      = offsetOfLine oldLines (s + kOld + j) + sumLen newLines
    ∧ sumLen ((oldLines.drop s).take kOld)
      ≤ offsetOfLine oldLines (s + kOld + j) := by
  have e1 : oldLines.take (s + kOld + j)
      = (oldLines.take s ++ (oldLines.drop s).take kOld)
        ++ (oldLines.drop (s + kOld)).take j := by
    rw [show s + kOld + j = (s + kOld) + j from rfl, List.take_add,
      List.take_add]
  have e2 : (newBufOf oldLines newLines s kOld).take
        (s + newLines.length + j)
      = (oldLines.take s ++ newLines)
        ++ (oldLines.drop (s + kOld)).take j := by
    rw [show s + newLines.length + j = (s + newLines.length) + j from rfl,
      List.take_add, newBuf_take_d2 oldLines newLines s kOld hs,
      newBuf_drop_d2 oldLines newLines s kOld hs]
  unfold offsetOfLine
  rw [e1, e2, sumLen_append, sumLen_append, sumLen_append, sumLen_append]
  omega

theorem mkFolded_suffix_adjust (styOf : String → List (Nat × Nat × Nat))
    (layoutOf : String → List Nat) (oldLines newLines : List String)
    (s kOld : Nat) (hs : s + kOld ≤ oldLines.length) (iv : Nat × Nat)
    (h1 : s + kOld ≤ iv.1) (h2 : iv.1 ≤ iv.2) (i0 i : Nat) :
    (mkFolded styOf layoutOf oldLines iv i0).adjust
        (offsetDeltaOf ((oldLines.drop s).take kOld) newLines)
        (lineDeltaOf ((oldLines.drop s).take kOld) newLines) i
      = mkFolded styOf layoutOf (newBufOf oldLines newLines s kOld)
          (iv.1 - (s + kOld) + (s + newLines.length),
            iv.2 - (s + kOld) + (s + newLines.length)) i := by
  have hwl : ((oldLines.drop s).take kOld).length = kOld :=
    win_length oldLines s kOld hs
  have hA : (lineDeltaOf ((oldLines.drop s).take kOld) newLines).adjust iv.1
      = iv.1 - (s + kOld) + (s + newLines.length) := by
    rw [lineDelta_adjust ((oldLines.drop s).take kOld) newLines iv.1
      (by rw [hwl]; omega), hwl]
    omega
  have hB : (lineDeltaOf ((oldLines.drop s).take kOld) newLines).adjust iv.2
      = iv.2 - (s + kOld) + (s + newLines.length) := by
    rw [lineDelta_adjust ((oldLines.drop s).take kOld) newLines iv.2
      (by rw [hwl]; omega), hwl]
    omega
  obtain ⟨ho1, ho2⟩ :=
    offset_suffix oldLines newLines s kOld hs (iv.1 - (s + kOld))
  rw [show s + newLines.length + (iv.1 - (s + kOld))
      = iv.1 - (s + kOld) + (s + newLines.length) from by omega] at ho1
  rw [show s + kOld + (iv.1 - (s + kOld)) = iv.1 from by omega] at ho1 ho2
  obtain ⟨hp1, hp2⟩ :=
    offset_suffix oldLines newLines s kOld hs (iv.2 + 1 - (s + kOld))
  rw [show s + newLines.length + (iv.2 + 1 - (s + kOld))
      = iv.2 - (s + kOld) + (s + newLines.length) + 1 from by omega] at hp1
  rw [show s + kOld + (iv.2 + 1 - (s + kOld)) = iv.2 + 1 from by omega]
    at hp1 hp2
  have hoffA : (offsetDeltaOf ((oldLines.drop s).take kOld) newLines).adjust
      (offsetOfLine oldLines iv.1)
      = offsetOfLine (newBufOf oldLines newLines s kOld)
          (iv.1 - (s + kOld) + (s + newLines.length)) := by
    rw [offsetDelta_adjust ((oldLines.drop s).take kOld) newLines _ ho2]
    omega
  have hoffB : (offsetDeltaOf ((oldLines.drop s).take kOld) newLines).adjust
      (offsetOfLine oldLines (iv.2 + 1))
      = offsetOfLine (newBufOf oldLines newLines s kOld)
          (iv.2 - (s + kOld) + (s + newLines.length) + 1) := by
    rw [offsetDelta_adjust ((oldLines.drop s).take kOld) newLines _ hp2]
    omega
  have hdropA : (newBufOf oldLines newLines s kOld).drop
      (iv.1 - (s + kOld) + (s + newLines.length)) = oldLines.drop iv.1 := by
    have h := newBuf_drop_shift oldLines newLines s kOld hs
      (iv.1 - (s + kOld))
    rw [show s + newLines.length + (iv.1 - (s + kOld))
        = iv.1 - (s + kOld) + (s + newLines.length) from by omega,
      show s + kOld + (iv.1 - (s + kOld)) = iv.1 from by omega] at h
    exact h
  have htk : iv.2 - (s + kOld) + (s + newLines.length) + 1
      - (iv.1 - (s + kOld) + (s + newLines.length)) = iv.2 + 1 - iv.1 := by
    omega
  have htext : mergedText (newBufOf oldLines newLines s kOld)
      (iv.1 - (s + kOld) + (s + newLines.length))
      (iv.2 - (s + kOld) + (s + newLines.length))
      = mergedText oldLines iv.1 iv.2 := by
    unfold mergedText
    rw [htk, hdropA]
  have hsty := mergedStyles_shift styOf
    ((oldLines.drop iv.1).take (iv.2 + 1 - iv.1)) iv.1
    (offsetOfLine oldLines iv.1) 0
    (offsetDeltaOf ((oldLines.drop s).take kOld) newLines)
    (lineDeltaOf ((oldLines.drop s).take kOld) newLines)
    (offsetDelta_minus_le ((oldLines.drop s).take kOld) newLines _ ho2)
    (lineDelta_minus_le ((oldLines.drop s).take kOld) newLines iv.1
      (by rw [hwl]; omega))
  simp only [mkFolded, FoldedM.adjust, FoldedM.mk.injEq]
  refine ⟨trivial, hA, hB, hoffA, hoffB, htext.symm, by rw [htext], ?_⟩
  rw [← hsty, hA, hoffA, htk, hdropA]

theorem adjustFoldedFrom_suffix (styOf : String → List (Nat × Nat × Nat))
    (layoutOf : String → List Nat) (oldLines newLines : List String)
    (s kOld : Nat) (hs : s + kOld ≤ oldLines.length) :
    ∀ ivs i0 i, (∀ iv ∈ ivs, s + kOld ≤ iv.1 ∧ iv.1 ≤ iv.2) →
      adjustFoldedFrom (offsetDeltaOf ((oldLines.drop s).take kOld) newLines)
          (lineDeltaOf ((oldLines.drop s).take kOld) newLines)
          (mkFoldedList styOf layoutOf oldLines ivs i0) i
        = mkFoldedList styOf layoutOf (newBufOf oldLines newLines s kOld)
            (ivs.map (fun iv => (iv.1 - (s + kOld) + (s + newLines.length),
              iv.2 - (s + kOld) + (s + newLines.length)))) i := by
  intro ivs
  induction ivs with
  | nil => intro i0 i _; rfl
  | cons iv rest ih =>
    intro i0 i hb
    have hiv := hb iv (List.mem_cons_self _ _)
    simp only [mkFoldedList, adjustFoldedFrom, List.map_cons,
      List.cons.injEq]
    exact ⟨mkFolded_suffix_adjust styOf layoutOf oldLines newLines s kOld hs
        iv hiv.1 hiv.2 i0 i,
      ih (i0 + 1) (i + 1) (fun x hx => hb x (List.mem_cons_of_mem _ hx))⟩

end Rebuild

namespace Rebuild

theorem incrementalOrigin_eq (insOf : String → List Phantom.Ins)
    (styOf : String → List (Nat × Nat × Nat))
    (oldLines newLines : List String) (s kOld : Nat)
    (hs : s + kOld ≤ oldLines.length) :
    incrementalOrigin insOf styOf oldLines newLines s kOld
      = fullOrigin insOf styOf (newBufOf oldLines newLines s kOld) := by
  have hlenpre : (oldLines.take s).length = s :=
    take_length_s oldLines s (by omega)
  have hlend1 : (oldLines.take (s + kOld)).length = s + kOld :=
    take_length_s oldLines (s + kOld) hs
  have hwl : ((oldLines.drop s).take kOld).length = kOld :=
    win_length oldLines s kOld hs
  have hsum : sumLen (oldLines.take (s + kOld))
      = sumLen (oldLines.take s) + sumLen ((oldLines.drop s).take kOld) := by
    rw [List.take_add, sumLen_append]
  have hsplit1 : buildLines insOf styOf oldLines 0 0
      = buildLines insOf styOf (oldLines.take s) 0 0
        ++ buildLines insOf styOf (oldLines.drop s) s
            (sumLen (oldLines.take s)) := by
    conv_lhs => rw [← List.take_append_drop s oldLines]
    rw [buildLines_append]
    simp only [hlenpre, Nat.zero_add]
  have hsplit2 : buildLines insOf styOf oldLines 0 0
      = buildLines insOf styOf (oldLines.take (s + kOld)) 0 0
        ++ buildLines insOf styOf (oldLines.drop (s + kOld)) (s + kOld)
            (sumLen (oldLines.take (s + kOld))) := by
    conv_lhs => rw [← List.take_append_drop (s + kOld) oldLines]
    rw [buildLines_append]
    simp only [hlend1, Nat.zero_add]
  have htake : (buildLines insOf styOf oldLines 0 0).take s
      = buildLines insOf styOf (oldLines.take s) 0 0 := by
    rw [hsplit1]
    exact List.take_left' (by rw [buildLines_length, hlenpre])
  have hdrop : (buildLines insOf styOf oldLines 0 0).drop (s + kOld)
      = buildLines insOf styOf (oldLines.drop (s + kOld)) (s + kOld)
          (sumLen (oldLines.take (s + kOld))) := by
    rw [hsplit2]
    exact List.drop_left' (by rw [buildLines_length, hlend1])
  have hlo_eq : (lineDeltaOf ((oldLines.drop s).take kOld) newLines).adjust
      (s + kOld) = s + newLines.length := by
    rw [lineDelta_adjust ((oldLines.drop s).take kOld) newLines (s + kOld)
      (by rw [hwl]; omega), hwl]
    omega
  have ho_eq : (offsetDeltaOf ((oldLines.drop s).take kOld) newLines).adjust
      (sumLen (oldLines.take (s + kOld)))
      = sumLen (oldLines.take s) + sumLen newLines := by
    rw [offsetDelta_adjust ((oldLines.drop s).take kOld) newLines _
      (by omega)]
    omega
  have hshift := buildLines_shift insOf styOf (oldLines.drop (s + kOld))
    (s + kOld) (sumLen (oldLines.take (s + kOld)))
    (offsetDeltaOf ((oldLines.drop s).take kOld) newLines)
    (lineDeltaOf ((oldLines.drop s).take kOld) newLines)
    (offsetDelta_minus_le ((oldLines.drop s).take kOld) newLines _
      (by omega))
    (lineDelta_minus_le ((oldLines.drop s).take kOld) newLines (s + kOld)
      (by rw [hwl]; omega))
  rw [hlo_eq, ho_eq] at hshift
  unfold incrementalOrigin fullOrigin newBufOf
  rw [htake, hdrop, ← hshift, buildLines_append, buildLines_append]
  simp only [hlenpre, List.length_append, sumLen_append, Nat.zero_add]

end Rebuild

namespace Rebuild

theorem incrementalFolded_eq (sw : String → Bool)
    (styOf : String → List (Nat × Nat × Nat)) (layoutOf : String → List Nat)
    (oldLines newLines : List String) (s kOld : Nat)
    (hs : s + kOld ≤ oldLines.length)
    (hb1 : s = 0 ∨ swallowAt sw oldLines (s - 1) = false)
    (hb2 : s + kOld = 0 ∨ swallowAt sw oldLines (s + kOld - 1) = false)
    (hb3 : s + newLines.length = 0 ∨
      swallowAt sw (newBufOf oldLines newLines s kOld)
        (s + newLines.length - 1) = false) :
    incrementalFolded sw styOf layoutOf oldLines newLines s kOld
      = fullFolded sw styOf layoutOf (newBufOf oldLines newLines s kOld) := by
  have hn2 : (newBufOf oldLines newLines s kOld).length
      = s + newLines.length + (oldLines.length - (s + kOld)) :=
    newBuf_length oldLines newLines s kOld hs
  have htkeq : (newBufOf oldLines newLines s kOld).take s = oldLines.take s :=
    newBuf_take_s oldLines newLines s kOld hs
  have hb1N : s = 0 ∨ swallowAt sw (newBufOf oldLines newLines s kOld)
      (s - 1) = false := by
    rcases hb1 with h0 | hf
    · exact Or.inl h0
    · rcases Nat.eq_zero_or_pos s with h0 | hpos
      · exact Or.inl h0
      · refine Or.inr ?_
        unfold swallowAt at hf ⊢
        rw [getD_of_take_eq (newBufOf oldLines newLines s kOld) oldLines s
          (s - 1) htkeq (by omega)]
        exact hf
  have hagree_pre : ∀ i, i < s → swallowAt sw oldLines i
      = swallowAt sw (newBufOf oldLines newLines s kOld) i := by
    intro i hi
    unfold swallowAt
    rw [getD_of_take_eq oldLines (newBufOf oldLines newLines s kOld) s i
      htkeq.symm hi]
  have hsplitO1 : Lines.buildIntervals (swallowAt sw oldLines)
      (oldLines.length - 1) 0 oldLines.length
    = Lines.buildIntervals (swallowAt sw oldLines) (oldLines.length - 1) 0 s
      ++ Lines.buildIntervals (swallowAt sw oldLines)
          (oldLines.length - 1) s (oldLines.length - s) := by
    have h := Lines.buildIntervals_split_at (swallowAt sw oldLines)
      (oldLines.length - 1) 0 s (oldLines.length - s)
      (by simp only [Nat.zero_add]; exact hb1)
    rw [show s + (oldLines.length - s) = oldLines.length from by omega,
      Nat.zero_add] at h
    exact h
  have hsplitO2 : Lines.buildIntervals (swallowAt sw oldLines)
      (oldLines.length - 1) s (oldLines.length - s)
    = Lines.buildIntervals (swallowAt sw oldLines) (oldLines.length - 1) s
        kOld
      ++ Lines.buildIntervals (swallowAt sw oldLines)
          (oldLines.length - 1) (s + kOld)
          (oldLines.length - (s + kOld)) := by
    have h := Lines.buildIntervals_split_at (swallowAt sw oldLines)
      (oldLines.length - 1) s kOld (oldLines.length - (s + kOld)) hb2
    rw [show kOld + (oldLines.length - (s + kOld)) = oldLines.length - s
        from by omega] at h
    exact h
  have hPfix : Lines.buildIntervals (swallowAt sw oldLines)
      (oldLines.length - 1) 0 s
    = Lines.buildIntervals (swallowAt sw oldLines) (s - 1) 0 s :=
    Lines.buildIntervals_switch_at (swallowAt sw oldLines) 0 s
      (oldLines.length - 1) (s - 1)
      (by simp only [Nat.zero_add]; exact hb1) (by omega) (by omega)
  have hPcongr : Lines.buildIntervals (swallowAt sw oldLines) (s - 1) 0 s
      = Lines.buildIntervals
          (swallowAt sw (newBufOf oldLines newLines s kOld)) (s - 1) 0 s :=
    Lines.buildIntervals_congr_f_lt (swallowAt sw oldLines)
      (swallowAt sw (newBufOf oldLines newLines s kOld)) (s - 1)
      (fun i hi => hagree_pre i (by omega)) s 0
  have hPfixN : Lines.buildIntervals
      (swallowAt sw (newBufOf oldLines newLines s kOld)) (s - 1) 0 s
    = Lines.buildIntervals
        (swallowAt sw (newBufOf oldLines newLines s kOld))
        ((newBufOf oldLines newLines s kOld).length - 1) 0 s :=
    Lines.buildIntervals_switch_at
      (swallowAt sw (newBufOf oldLines newLines s kOld)) 0 s (s - 1)
      ((newBufOf oldLines newLines s kOld).length - 1)
      (by simp only [Nat.zero_add]; exact hb1N) (by omega) (by omega)
  have hsplitN1 : Lines.buildIntervals
      (swallowAt sw (newBufOf oldLines newLines s kOld))
      ((newBufOf oldLines newLines s kOld).length - 1) 0
      (newBufOf oldLines newLines s kOld).length
    = Lines.buildIntervals
        (swallowAt sw (newBufOf oldLines newLines s kOld))
        ((newBufOf oldLines newLines s kOld).length - 1) 0 s
      ++ Lines.buildIntervals
          (swallowAt sw (newBufOf oldLines newLines s kOld))
          ((newBufOf oldLines newLines s kOld).length - 1) s
          ((newBufOf oldLines newLines s kOld).length - s) := by
    have h := Lines.buildIntervals_split_at
      (swallowAt sw (newBufOf oldLines newLines s kOld))
      ((newBufOf oldLines newLines s kOld).length - 1) 0 s
      ((newBufOf oldLines newLines s kOld).length - s)
      (by simp only [Nat.zero_add]; exact hb1N)
    rw [show s + ((newBufOf oldLines newLines s kOld).length - s)
        = (newBufOf oldLines newLines s kOld).length from by omega,
      Nat.zero_add] at h
    exact h
  have hsplitN2 : Lines.buildIntervals
      (swallowAt sw (newBufOf oldLines newLines s kOld))
      ((newBufOf oldLines newLines s kOld).length - 1) s
      ((newBufOf oldLines newLines s kOld).length - s)
    = Lines.buildIntervals
        (swallowAt sw (newBufOf oldLines newLines s kOld))
        ((newBufOf oldLines newLines s kOld).length - 1) s newLines.length
      ++ Lines.buildIntervals
          (swallowAt sw (newBufOf oldLines newLines s kOld))
          ((newBufOf oldLines newLines s kOld).length - 1)
          (s + newLines.length) (oldLines.length - (s + kOld)) := by
    have h := Lines.buildIntervals_split_at
      (swallowAt sw (newBufOf oldLines newLines s kOld))
      ((newBufOf oldLines newLines s kOld).length - 1) s newLines.length
      (oldLines.length - (s + kOld)) hb3
    rw [show newLines.length + (oldLines.length - (s + kOld))
        = (newBufOf oldLines newLines s kOld).length - s from by omega] at h
    exact h
  have hW : Lines.buildIntervals
      (swallowAt sw (newBufOf oldLines newLines s kOld))
      ((newBufOf oldLines newLines s kOld).length - 1) s newLines.length
    = Lines.buildIntervals
        (swallowAt sw (newBufOf oldLines newLines s kOld))
        (s + newLines.length - 1) s newLines.length :=
    Lines.buildIntervals_switch_at
      (swallowAt sw (newBufOf oldLines newLines s kOld)) s newLines.length
      ((newBufOf oldLines newLines s kOld).length - 1)
      (s + newLines.length - 1) hb3 (by omega) (by omega)
  have hS : Lines.buildIntervals
      (swallowAt sw (newBufOf oldLines newLines s kOld))
      ((newBufOf oldLines newLines s kOld).length - 1)
      (s + newLines.length) (oldLines.length - (s + kOld))
    = (Lines.buildIntervals (swallowAt sw oldLines) (oldLines.length - 1)
        (s + kOld) (oldLines.length - (s + kOld))).map
        (fun iv => (iv.1 - (s + kOld) + (s + newLines.length),
          iv.2 - (s + kOld) + (s + newLines.length))) := by
    rcases Nat.eq_zero_or_pos (oldLines.length - (s + kOld)) with h0 | hpos
    · rw [h0, Lines.buildIntervals_zero, Lines.buildIntervals_zero]
      rfl
    · have h := Lines.buildIntervals_pair (swallowAt sw oldLines)
        (swallowAt sw (newBufOf oldLines newLines s kOld)) (s + kOld)
        (s + newLines.length)
        (swallow_suffix_agree sw oldLines newLines s kOld hs)
        (oldLines.length - (s + kOld)) 0
        (oldLines.length - 1 - (s + kOld))
      rw [show s + newLines.length + (oldLines.length - 1 - (s + kOld))
          = (newBufOf oldLines newLines s kOld).length - 1 from by omega,
        show s + kOld + (oldLines.length - 1 - (s + kOld))
          = oldLines.length - 1 from by omega,
        Nat.add_zero, Nat.add_zero] at h
      exact h
  have memP : ∀ iv ∈ Lines.buildIntervals (swallowAt sw oldLines) (s - 1)
      0 s, iv.1 ≤ iv.2 ∧ iv.2 < s := by
    intro iv hiv
    rcases Nat.eq_zero_or_pos s with h0 | hpos
    · rw [h0, Lines.buildIntervals_zero] at hiv
      exact absurd hiv (List.not_mem_nil _)
    · obtain ⟨_, hse⟩ := Lines.buildIntervals_bounds_start
        (swallowAt sw oldLines) (s - 1) s 0 iv hiv
      obtain ⟨_, hle⟩ := Lines.buildIntervals_mem_lt
        (swallowAt sw oldLines) (s - 1) s 0 iv hiv
      rw [show max (0 + s - 1) (s - 1) = s - 1 from by
        simp only [Nat.zero_add, Nat.max_self]] at hle
      exact ⟨hse, by omega⟩
  have memW : ∀ iv ∈ Lines.buildIntervals (swallowAt sw oldLines)
      (oldLines.length - 1) s kOld,
      s ≤ iv.1 ∧ iv.1 ≤ iv.2 ∧ iv.1 < s + kOld := by
    intro iv hiv
    obtain ⟨h1', h2'⟩ := Lines.buildIntervals_bounds_start
      (swallowAt sw oldLines) (oldLines.length - 1) kOld s iv hiv
    obtain ⟨h3', _⟩ := Lines.buildIntervals_mem_lt
      (swallowAt sw oldLines) (oldLines.length - 1) kOld s iv hiv
    exact ⟨h1', h2', h3'⟩
  have memS : ∀ iv ∈ Lines.buildIntervals (swallowAt sw oldLines)
      (oldLines.length - 1) (s + kOld) (oldLines.length - (s + kOld)),
      s + kOld ≤ iv.1 ∧ iv.1 ≤ iv.2 :=
    fun iv hiv => Lines.buildIntervals_bounds_start (swallowAt sw oldLines)
      (oldLines.length - 1) (oldLines.length - (s + kOld)) (s + kOld) iv hiv
  have hfullOld : fullFolded sw styOf layoutOf oldLines
      = mkFoldedList styOf layoutOf oldLines
          (Lines.buildIntervals (swallowAt sw oldLines) (s - 1) 0 s) 0
        ++ mkFoldedList styOf layoutOf oldLines
            (Lines.buildIntervals (swallowAt sw oldLines)
              (oldLines.length - 1) s kOld)
            (Lines.buildIntervals (swallowAt sw oldLines) (s - 1) 0 s).length
        ++ mkFoldedList styOf layoutOf oldLines
            (Lines.buildIntervals (swallowAt sw oldLines)
              (oldLines.length - 1) (s + kOld)
              (oldLines.length - (s + kOld)))
            ((Lines.buildIntervals (swallowAt sw oldLines) (s - 1) 0
                s).length
              + (Lines.buildIntervals (swallowAt sw oldLines)
                  (oldLines.length - 1) s kOld).length) := by
    unfold fullFolded
    rw [hsplitO1, hPfix, hsplitO2, mkFoldedList_append, mkFoldedList_append]
    simp only [Nat.zero_add, List.append_assoc]
  have hpreF : prefixFolded sw styOf layoutOf oldLines s
      = mkFoldedList styOf layoutOf oldLines
          (Lines.buildIntervals (swallowAt sw oldLines) (s - 1) 0 s) 0 := by
    have hfA : ∀ i, (mkFoldedList styOf layoutOf oldLines
        (Lines.buildIntervals (swallowAt sw oldLines) (s - 1) 0 s) i).filter
          (fun fl => decide (fl.origin_line_end < s))
        = mkFoldedList styOf layoutOf oldLines
            (Lines.buildIntervals (swallowAt sw oldLines) (s - 1) 0 s) i := by
      intro i
      apply List.filter_eq_self.mpr
      intro x hx
      obtain ⟨iv, hmem, _, h2'⟩ := mkFoldedList_mem_bounds styOf layoutOf
        oldLines _ i x hx
      simp only [h2', decide_eq_true_eq]
      exact (memP iv hmem).2
    have hfB : ∀ i, (mkFoldedList styOf layoutOf oldLines
        (Lines.buildIntervals (swallowAt sw oldLines) (oldLines.length - 1)
          s kOld) i).filter (fun fl => decide (fl.origin_line_end < s))
        = [] := by
      intro i
      apply List.filter_eq_nil_iff.mpr
      intro x hx
      obtain ⟨iv, hmem, _, h2'⟩ := mkFoldedList_mem_bounds styOf layoutOf
        oldLines _ i x hx
      obtain ⟨hm1, hm2, _⟩ := memW iv hmem
      simp only [h2', decide_eq_true_eq]
      omega
    have hfC : ∀ i, (mkFoldedList styOf layoutOf oldLines
        (Lines.buildIntervals (swallowAt sw oldLines) (oldLines.length - 1)
          (s + kOld) (oldLines.length - (s + kOld))) i).filter
          (fun fl => decide (fl.origin_line_end < s)) = [] := by
      intro i
      apply List.filter_eq_nil_iff.mpr
      intro x hx
      obtain ⟨iv, hmem, _, h2'⟩ := mkFoldedList_mem_bounds styOf layoutOf
        oldLines _ i x hx
      obtain ⟨hm1, hm2⟩ := memS iv hmem
      simp only [h2', decide_eq_true_eq]
      omega
    unfold prefixFolded
    rw [hfullOld, List.filter_append, List.filter_append, hfA, hfB, hfC,
      List.append_nil, List.append_nil]
  have hsufF : suffixFolded sw styOf layoutOf oldLines (s + kOld)
      = mkFoldedList styOf layoutOf oldLines
          (Lines.buildIntervals (swallowAt sw oldLines)
            (oldLines.length - 1) (s + kOld) (oldLines.length - (s + kOld)))
          ((Lines.buildIntervals (swallowAt sw oldLines) (s - 1) 0 s).length
            + (Lines.buildIntervals (swallowAt sw oldLines)
                (oldLines.length - 1) s kOld).length) := by
    have hgA : ∀ i, (mkFoldedList styOf layoutOf oldLines
        (Lines.buildIntervals (swallowAt sw oldLines) (s - 1) 0 s) i).filter
          (fun fl => decide (s + kOld ≤ fl.origin_line_start)) = [] := by
      intro i
      apply List.filter_eq_nil_iff.mpr
      intro x hx
      obtain ⟨iv, hmem, h1', _⟩ := mkFoldedList_mem_bounds styOf layoutOf
        oldLines _ i x hx
      obtain ⟨hm1, hm2⟩ := memP iv hmem
      simp only [h1', decide_eq_true_eq]
      omega
    have hgB : ∀ i, (mkFoldedList styOf layoutOf oldLines
        (Lines.buildIntervals (swallowAt sw oldLines) (oldLines.length - 1)
          s kOld) i).filter
          (fun fl => decide (s + kOld ≤ fl.origin_line_start)) = [] := by
      intro i
      apply List.filter_eq_nil_iff.mpr
      intro x hx
      obtain ⟨iv, hmem, h1', _⟩ := mkFoldedList_mem_bounds styOf layoutOf
        oldLines _ i x hx
      obtain ⟨hm1, hm2, hm3⟩ := memW iv hmem
      simp only [h1', decide_eq_true_eq]
      omega
    have hgC : ∀ i, (mkFoldedList styOf layoutOf oldLines
        (Lines.buildIntervals (swallowAt sw oldLines) (oldLines.length - 1)
          (s + kOld) (oldLines.length - (s + kOld))) i).filter
          (fun fl => decide (s + kOld ≤ fl.origin_line_start))
        = mkFoldedList styOf layoutOf oldLines
            (Lines.buildIntervals (swallowAt sw oldLines)
              (oldLines.length - 1) (s + kOld)
              (oldLines.length - (s + kOld))) i := by
      intro i
      apply List.filter_eq_self.mpr
      intro x hx
      obtain ⟨iv, hmem, h1', _⟩ := mkFoldedList_mem_bounds styOf layoutOf
        oldLines _ i x hx
      obtain ⟨hm1, hm2⟩ := memS iv hmem
      simp only [h1', decide_eq_true_eq]
      omega
    unfold suffixFolded
    rw [hfullOld, List.filter_append, List.filter_append, hgA, hgB, hgC,
      List.nil_append, List.nil_append]
  unfold incrementalFolded fullFolded windowIntervals
  rw [hpreF, hsufF]
  rw [hsplitN1, hsplitN2, hW, hS, ← hPfixN, ← hPcongr]
  rw [mkFoldedList_append, mkFoldedList_append]
  rw [adjustFoldedFrom_suffix styOf layoutOf oldLines newLines s kOld hs
    _ _ _ memS]
  rw [mkFoldedList_congr_buffer styOf layoutOf oldLines
    (newBufOf oldLines newLines s kOld) s htkeq.symm _ 0 memP]
  simp only [mkFoldedList_length, Nat.zero_add]
  rw [List.append_assoc]

end Rebuild

/-- C3: for an edit replacing the origin lines `[s, s + kOld)` by
`newLines` whose window boundaries do not split a fold chain (the safe
minimal window of spec 4.5), the incremental path — reusing the built
origin lines and folded lines outside the window verbatim and shifting
the indices and offsets of those after it by the resolved deltas —
produces exactly the `origin_lines`, `origin_folded_lines` and
`visual_lines` of a full rebuild of the post-edit buffer. -/
theorem claim_c3_incremental_full_equiv (insOf : String → List Phantom.Ins)
    (styOf : String → List (Nat × Nat × Nat)) (sw : String → Bool)
    (layoutOf : String → List Nat) (oldLines newLines : List String)
    (s kOld : Nat) (hs : s + kOld ≤ oldLines.length)
    (hb1 : s = 0 ∨ Rebuild.swallowAt sw oldLines (s - 1) = false)
    (hb2 : s + kOld = 0 ∨
      Rebuild.swallowAt sw oldLines (s + kOld - 1) = false)
    (hb3 : s + newLines.length = 0 ∨
      Rebuild.swallowAt sw (Rebuild.newBufOf oldLines newLines s kOld)
        (s + newLines.length - 1) = false) :
    Rebuild.incrementalOrigin insOf styOf oldLines newLines s kOld
      = Rebuild.fullOrigin insOf styOf
          (Rebuild.newBufOf oldLines newLines s kOld)
    ∧ Rebuild.incrementalFolded sw styOf layoutOf oldLines newLines s kOld
      = Rebuild.fullFolded sw styOf layoutOf
          (Rebuild.newBufOf oldLines newLines s kOld)
    ∧ Rebuild.incrementalVisual sw styOf layoutOf oldLines newLines s kOld
      = Rebuild.fullVisual sw styOf layoutOf
          (Rebuild.newBufOf oldLines newLines s kOld) := by
  refine ⟨Rebuild.incrementalOrigin_eq insOf styOf oldLines newLines s kOld
      hs,
    Rebuild.incrementalFolded_eq sw styOf layoutOf oldLines newLines s kOld
      hs hb1 hb2 hb3, ?_⟩
  unfold Rebuild.incrementalVisual Rebuild.fullVisual
  rw [Rebuild.incrementalFolded_eq sw styOf layoutOf oldLines newLines s
    kOld hs hb1 hb2 hb3]

/-- Witness for C3 on a four-line buffer whose third line swallows its
successor, with an edit replacing the second line by two new lines. -/
theorem claim_c3_incremental_full_equiv_witness :
    (1 + 1 ≤ (["a", "b", "F", "d"] : List String).length) ∧
    (1 = 0 ∨ Rebuild.swallowAt (fun c => c == "F") ["a", "b", "F", "d"]
        (1 - 1) = false) ∧
    (1 + 1 = 0 ∨ Rebuild.swallowAt (fun c => c == "F") ["a", "b", "F", "d"]
        (1 + 1 - 1) = false) ∧
    (1 + (["X", "Y"] : List String).length = 0 ∨
      Rebuild.swallowAt (fun c => c == "F")
        (Rebuild.newBufOf ["a", "b", "F", "d"] ["X", "Y"] 1 1)
        (1 + (["X", "Y"] : List String).length - 1) = false) ∧
    (Rebuild.incrementalOrigin (fun _ => []) (fun c => [(0, c.length, 5)])
        ["a", "b", "F", "d"] ["X", "Y"] 1 1
      = Rebuild.fullOrigin (fun _ => []) (fun c => [(0, c.length, 5)])
          (Rebuild.newBufOf ["a", "b", "F", "d"] ["X", "Y"] 1 1)
    ∧ Rebuild.incrementalFolded (fun c => c == "F")
        (fun c => [(0, c.length, 5)]) (fun t => [t.length])
        ["a", "b", "F", "d"] ["X", "Y"] 1 1
      = Rebuild.fullFolded (fun c => c == "F")
          (fun c => [(0, c.length, 5)]) (fun t => [t.length])
          (Rebuild.newBufOf ["a", "b", "F", "d"] ["X", "Y"] 1 1)
    ∧ Rebuild.incrementalVisual (fun c => c == "F")
        (fun c => [(0, c.length, 5)]) (fun t => [t.length])
        ["a", "b", "F", "d"] ["X", "Y"] 1 1
      = Rebuild.fullVisual (fun c => c == "F")
          (fun c => [(0, c.length, 5)]) (fun t => [t.length])
          (Rebuild.newBufOf ["a", "b", "F", "d"] ["X", "Y"] 1 1)) :=
  ⟨by decide, by decide, by decide, by decide,
    claim_c3_incremental_full_equiv (fun _ => [])
      (fun c => [(0, c.length, 5)]) (fun c => c == "F") (fun t => [t.length])
      ["a", "b", "F", "d"] ["X", "Y"] 1 1 (by decide) (by decide)
      (by decide) (by decide)⟩
